import Mathlib

/-!
Verification of the hallucination-filtering and caption-wrapping kernel of
the `bot_traducao` subtitle pipeline.

Strings are modelled as `List Char` (named `Str` below).  The embedding is
faithful to Python semantics on ASCII text:
* `str.lower`             → `lowerStr` (`Char.toLower` per character);
* `str.strip`             → `stripWS` (drop leading and trailing whitespace);
* `re.sub(r'[^\w\s]','')` → `List.filter keepChar` (keep word chars and
  whitespace; Python `\w` is letters, digits and the underscore);
* `re.sub(r'[^\w\s]',' ')`→ `punctToSpace` (each removed char becomes one space);
* `re.sub(r'\s+',' ')`    → `collapseWS` (each whitespace run becomes one space);
* `str.split()`           → `splitWS` (split on whitespace runs, no empty tokens);
* `sep.join(...)`         → `joinSep`.
The frequency test `qtd / len(palavras) >= threshold` (Python float division
against the literals `0.7` / `0.5`) is modelled exactly by the equivalent
integer comparisons `10*qtd ≥ 7*len` and `2*qtd ≥ len`.
-/

abbrev Str := List Char

/-- Python whitespace characters (`\s`, ASCII range). -/
def isSpaceChar (c : Char) : Bool :=
  c = ' ' || c = '\t' || c = '\n' || c = '\r' || c = '\x0b' || c = '\x0c'

/-- Python word characters (`\w`, ASCII range): letters, digits, underscore. -/
def isWordChar (c : Char) : Bool :=
  c.isAlpha || c.isDigit || c = '_'

/-- A character kept by `re.sub(r'[^\w\s]', '', ...)`. -/
def keepChar (c : Char) : Bool :=
  isWordChar c || isSpaceChar c

/-- `str.lower()` on ASCII text. -/
def lowerStr (s : Str) : Str := s.map Char.toLower

/-- Remove the maximal whitespace suffix. -/
def dropTrailingWS : Str → Str
  | [] => []
  | c :: rest =>
    let r := dropTrailingWS rest
    if r.isEmpty then (if isSpaceChar c then [] else [c]) else c :: r

/-- `str.strip()`: remove leading and trailing whitespace. -/
def stripWS (s : Str) : Str :=
  dropTrailingWS (s.dropWhile isSpaceChar)

/-- `re.sub(r'\s+', ' ', s)`: replace each maximal whitespace run by one space. -/
def collapseWS : Str → Str
  | [] => []
  | [c] => if isSpaceChar c then [' '] else [c]
  | c :: d :: rest =>
    if isSpaceChar c then
      (if isSpaceChar d then collapseWS (d :: rest) else ' ' :: collapseWS (d :: rest))
    else c :: collapseWS (d :: rest)

/-- `re.sub(r'[^\w\s]', ' ', s)`: replace each non-word, non-space char by a space. -/
def punctToSpace (s : Str) : Str :=
  s.map (fun c => if keepChar c then c else ' ')

/-- The head of a `dropWhile` result falsifies the predicate. -/
theorem dropWhile_head_not {α} (p : α → Bool) (s : List α) {c : α} {t : List α}
    (h : s.dropWhile p = c :: t) : p c = false := by
  induction s with
  | nil => simp at h
  | cons a s ih =>
    by_cases ha : p a
    · rw [List.dropWhile_cons_of_pos ha] at h; exact ih h
    · rw [List.dropWhile_cons_of_neg ha] at h
      injection h with h1 _
      exact Bool.eq_false_iff.mpr (h1 ▸ ha)

/-- Helper for `str.split()`: walks the string holding the current word in
reverse. -/
def splitWSAcc : Str → Str → List Str
  | cur, [] => if cur.isEmpty then [] else [cur.reverse]
  | cur, c :: rest =>
    if isSpaceChar c then
      (if cur.isEmpty then splitWSAcc [] rest
       else cur.reverse :: splitWSAcc [] rest)
    else splitWSAcc (c :: cur) rest

/-- `str.split()`: whitespace-separated tokens, empty tokens discarded. -/
def splitWS (s : Str) : List Str := splitWSAcc [] s

/-- `sep.join(words)`. -/
def joinSep (sep : Char) : List Str → Str
  | [] => []
  | [w] => w
  | w :: ws => w ++ sep :: joinSep sep ws

/-! ### Segment normalizer (`limpar_alucinacoes_srt.py`, `extrair_paralelo.py`) -/

/-- `normalizar_texto` from `limpar_alucinacoes_srt.py`:
`texto.lower().strip()`, then `re.sub(r'[^\w\s]', '', texto)`,
then `re.sub(r'\s+', ' ', texto)`.  Note that the strip happens *before*
punctuation removal and whitespace collapsing. -/
def normalizar_texto (texto : Str) : Str :=
  collapseWS (List.filter keepChar (stripWS (lowerStr texto)))

/-- The inline `normalizar_texto` from `extrair_paralelo.py`:
`re.sub(r'[^\w\s]', '', texto.lower())`, then
`re.sub(r'\s+', ' ', texto_norm).strip()` — here the strip happens last. -/
def normalizarTextoParalelo (texto : Str) : Str :=
  stripWS (collapseWS (List.filter keepChar (lowerStr texto)))

/-- The spec's wording of `normalize`: lower-case; remove every character
that is not a letter, digit, or whitespace; collapse whitespace runs to one
space; strip leading/trailing whitespace.  (Defined from the spec's words to
compare against the implementations; it drops underscores, which `\w` keeps.) -/
def normalizeSpec (s : Str) : Str :=
  stripWS (collapseWS (List.filter
    (fun c => c.isAlpha || c.isDigit || isSpaceChar c) (lowerStr s)))

/-- `ws.count w`: number of occurrences of word `w`. -/
def countOcc (w : Str) (ws : List Str) : Nat :=
  ws.countP (fun x => x == w)

/-- `Counter(palavras).most_common(1)[0]`: the pair (word, count) with the
highest count; ties are broken in favour of the first-encountered word,
exactly as `collections.Counter` does. -/
def mostCommon (ws : List Str) : Str × Nat :=
  ws.foldl (fun best w =>
    if best.2 < countOcc w ws then (w, countOcc w ws) else best) ([], 0)

/-- The fixed set `palavras_ok` of common words allowed to repeat. -/
def palavrasOk : List Str :=
  [['i'], ['y','o','u'], ['t','h','e'], ['a'], ['a','n','d'], ['t','o'],
   ['i','t'], ['i','s'], ['o','f'], ['i','n'], ['t','h','a','t'],
   ['m','e'], ['m','y'], ['y','o','u','r']]

/-- `eh_alucinacao_interna` from `limpar_alucinacoes_srt.py` (the inline copy
in `extrair_paralelo.py` is identical).  The float test
`qtd / len(palavras) >= 0.7` (resp. `>= 0.5`) is modelled exactly as
`10*qtd ≥ 7*len` (resp. `2*qtd ≥ len`). -/
def eh_alucinacao_interna (texto : Str) : Bool :=
  let palavras := splitWS (punctToSpace (lowerStr texto))
  if palavras.length < 5 then false
  else
    let mc := mostCommon palavras
    let threshold7 : Bool := decide (mc.1 ∈ palavrasOk)
    if (if threshold7 then 7 * palavras.length ≤ 10 * mc.2
        else palavras.length ≤ 2 * mc.2) then true
    else if 10 ≤ palavras.length ∧ palavras.dedup.length ≤ 3 then true
    else false

/-! ### Hallucination filter (`filtrar_alucinacoes`) -/

/-- A parsed subtitle segment, as built by `parse_srt` /
`processar_video`: timestamps (type `τ`: strings for the SRT cleaner,
seconds for the transcription pipeline), raw text and its normalized form. -/
structure Segment (τ : Type) where
  start : τ
  stop : τ
  text : Str
  textNorm : Str
deriving DecidableEq, Repr

/-- Python's substring containment `a in b` (contiguous substring). -/
def isSubstr (a : Str) (b : Str) : Bool :=
  match b with
  | [] => a.isEmpty
  | _ :: t => a.isPrefixOf b || isSubstr a t

/-- The run-extension condition of the consecutive filter:
`texto_norm == outro or (len(texto_norm) > 3 and (texto_norm in outro or
outro in texto_norm))`. -/
def matchesAnchor (anchor outro : Str) : Bool :=
  anchor == outro ||
    (decide (3 < anchor.length) &&
      (isSubstr anchor outro || isSubstr outro anchor))

/-- The inner `while` loop: greedily extend the run of segments matching
the anchor's normalized text, returning the run and the remaining tail. -/
def takeRun {τ : Type} (anchor : Str) :
    List (Segment τ) → List (Segment τ) × List (Segment τ)
  | [] => ([], [])
  | s :: rest =>
    if matchesAnchor anchor s.textNorm then
      let p := takeRun anchor rest
      (s :: p.1, p.2)
    else ([], s :: rest)

theorem takeRun_snd_length_le {τ : Type} (anchor : Str) (l : List (Segment τ)) :
    (takeRun anchor l).2.length ≤ l.length := by
  induction l with
  | nil => simp [takeRun]
  | cons s rest ih =>
    simp only [takeRun]
    by_cases h : matchesAnchor anchor s.textNorm
    · simp only [h, if_pos, List.length_cons]
      omega
    · simp [h]

/-- Fuel-indexed form of the outer `while` loop of `filtrar_alucinacoes`;
the fuel bounds the list length, so the zero-fuel non-empty case is never
reached when called through `filtrarConsecutivas`. -/
def filtrarConsecutivasGo {τ : Type} (maxRep : Nat) :
    Nat → List (Segment τ) → List (Segment τ) × Nat
  | _, [] => ([], 0)
  | 0, l => (l, 0)
  | fuel + 1, s :: rest =>
    let p := takeRun s.textNorm rest
    let q := filtrarConsecutivasGo maxRep fuel p.2
    if maxRep < p.1.length + 1 then (s :: q.1, p.1.length + q.2)
    else (s :: (p.1 ++ q.1), q.2)

/-- The outer `while` loop of `filtrar_alucinacoes` (and of the inline copy
in `extrair_paralelo.py`): for each anchor, if the run including the anchor
is longer than `maxRep`, keep only the anchor and count the rest as removed;
otherwise keep the whole run. -/
def filtrarConsecutivas {τ : Type} (maxRep : Nat)
    (l : List (Segment τ)) : List (Segment τ) × Nat :=
  filtrarConsecutivasGo maxRep l.length l

theorem filtrarConsecutivasGo_nil {τ : Type} (m fuel : Nat) :
    filtrarConsecutivasGo m fuel ([] : List (Segment τ)) = ([], 0) := by
  cases fuel <;> rfl

theorem filtrarConsecutivasGo_cons {τ : Type} (m fuel : Nat) (s : Segment τ)
    (rest : List (Segment τ)) :
    filtrarConsecutivasGo m (fuel + 1) (s :: rest) =
      if m < ((takeRun s.textNorm rest).1).length + 1 then
        (s :: (filtrarConsecutivasGo m fuel (takeRun s.textNorm rest).2).1,
         ((takeRun s.textNorm rest).1).length +
           (filtrarConsecutivasGo m fuel (takeRun s.textNorm rest).2).2)
      else
        (s :: ((takeRun s.textNorm rest).1 ++
            (filtrarConsecutivasGo m fuel (takeRun s.textNorm rest).2).1),
         (filtrarConsecutivasGo m fuel (takeRun s.textNorm rest).2).2) := rfl

theorem filtrarConsecutivasGo_congr {τ : Type} (m : Nat) :
    ∀ (f₁ : Nat) (l : List (Segment τ)) (f₂ : Nat),
    l.length ≤ f₁ → l.length ≤ f₂ →
    filtrarConsecutivasGo m f₁ l = filtrarConsecutivasGo m f₂ l := by
  intro f₁
  induction f₁ with
  | zero =>
    intro l f₂ h1 _
    have : l = [] := List.eq_nil_of_length_eq_zero (by omega)
    subst this
    rw [filtrarConsecutivasGo_nil, filtrarConsecutivasGo_nil]
  | succ f₁ ih =>
    intro l f₂ h1 h2
    rcases l with _ | ⟨s, rest⟩
    · rw [filtrarConsecutivasGo_nil, filtrarConsecutivasGo_nil]
    · rcases f₂ with _ | f₂'
      · simp at h2
      · rw [filtrarConsecutivasGo_cons, filtrarConsecutivasGo_cons]
        have hle := takeRun_snd_length_le s.textNorm rest
        simp only [List.length_cons] at h1 h2
        rw [ih (takeRun s.textNorm rest).2 f₂' (by omega) (by omega)]

/-- `filtrar_alucinacoes(segments, max_repeticoes)` from
`limpar_alucinacoes_srt.py`: drop internal hallucinations, then collapse
consecutive repeats; returns the kept segments and the removed count. -/
def filtrar_alucinacoes {τ : Type} (segments : List (Segment τ))
    (maxRep : Nat) : List (Segment τ) × Nat :=
  if segments.isEmpty then (segments, 0)
  else
    let segsLimpos := segments.filter (fun seg => !eh_alucinacao_interna seg.text)
    let internas := segments.countP (fun seg => eh_alucinacao_interna seg.text)
    if segsLimpos.isEmpty then ([], internas)
    else
      let p := filtrarConsecutivas maxRep segsLimpos
      (p.1, internas + p.2)

/-- A raw transcription segment as delivered by the speech-to-text model
(before text stripping), used by `processar_video` in `extrair_paralelo.py`. -/
structure RawSegment (τ : Type) where
  start : τ
  stop : τ
  text : Str
deriving DecidableEq, Repr

/-- Step 5 of `processar_video` in `extrair_paralelo.py`: strip each
segment's text and keep it only when the stripped text is non-empty
(`if text and ...`) and not an internal hallucination; record the
normalized text alongside. -/
def processarStep1 {τ : Type} (segments : List (RawSegment τ)) :
    List (Segment τ) :=
  segments.filterMap (fun seg =>
    let text := stripWS seg.text
    if !text.isEmpty && !eh_alucinacao_interna text then
      some ⟨seg.start, seg.stop, text, normalizarTextoParalelo text⟩
    else none)

/-- Steps 5–6 of `processar_video` in `extrair_paralelo.py`: the internal
filter above followed by the same consecutive-repeat collapsing with the
hard-coded threshold 2. -/
def processarFiltro {τ : Type} (segments : List (RawSegment τ)) :
    List (Segment τ) :=
  (filtrarConsecutivas 2 (processarStep1 segments)).1

/-! ### Spec-side description of the consecutive-run collapsing (§4.2 step 2) -/

/-- The spec's wording of the run-extension condition: the other segment's
normalized text "either equals the run's anchor normalized text, or — when
the anchor's normalized text is longer than 3 characters — one is a
substring of the other". -/
def specMatches (anchor outro : Str) : Bool :=
  anchor == outro ||
    (decide (3 < anchor.length) &&
      (isSubstr outro anchor || isSubstr anchor outro))

/-- The spec's wording of step 2: from the anchor, the run extends over the
longest prefix of subsequent segments matching the anchor; if the run length
exceeds `maxRep` keep only the first segment, otherwise keep the whole run;
then continue after the run. -/
def specStep2 {τ : Type} (maxRep : Nat) :
    List (Segment τ) → List (Segment τ)
  | [] => []
  | s :: rest =>
    let run := rest.takeWhile (fun x => specMatches s.textNorm x.textNorm)
    let rest' := rest.dropWhile (fun x => specMatches s.textNorm x.textNorm)
    if maxRep < run.length + 1 then s :: specStep2 maxRep rest'
    else (s :: run) ++ specStep2 maxRep rest'
termination_by l => l.length
decreasing_by
  all_goals
    have h : (rest.dropWhile (fun x => specMatches s.textNorm x.textNorm)).length ≤
        rest.length := (List.dropWhile_sublist _).length_le
    simp only [List.length_cons]
    omega

/-! ### Caption wrapper (`quebrar_legenda_netflix`, `core/legenda.py`) -/

/-- `texto.replace('\n', ' ')`. -/
def replaceNL (s : Str) : Str :=
  s.map (fun c => if c = '\n' then ' ' else c)

/-- One iteration of the greedy line-building loop of
`quebrar_legenda_netflix`: state is `(closed lines, current line)`;
`teste = f"{linha_atual} {palavra}".strip()`. -/
def quebrarStep (maxChars : Nat) (acc : List Str × Str) (palavra : Str) :
    List Str × Str :=
  let teste := stripWS (acc.2 ++ ' ' :: palavra)
  if teste.length ≤ maxChars then (acc.1, teste)
  else ((if acc.2.isEmpty then acc.1 else acc.1 ++ [acc.2]), palavra)

/-- The full list `linhas` built by `quebrar_legenda_netflix` before
truncation to `max_linhas`. -/
def quebrarLinhasAll (texto : Str) (maxChars : Nat) : List Str :=
  let palavras := splitWS (stripWS (replaceNL texto))
  let p := palavras.foldl (quebrarStep maxChars) ([], [])
  if p.2.isEmpty then p.1 else p.1 ++ [p.2]

/-- The lines actually returned: `linhas[:max_linhas]`. -/
def quebrarLinhas (texto : Str) (maxChars maxLinhas : Nat) : List Str :=
  (quebrarLinhasAll texto maxChars).take maxLinhas

/-- `quebrar_legenda_netflix(texto, max_chars, max_linhas)` from
`core/legenda.py` (identical copies in `extrair_proximos_srt_v3_otimizado.py`
and `extrair_proximos_srt_v4_hibrido.py`): greedy word wrap, then
`"\n".join(linhas[:max_linhas])`. -/
def quebrar_legenda_netflix (texto : Str) (maxChars maxLinhas : Nat) : Str :=
  joinSep '\n' (quebrarLinhas texto maxChars maxLinhas)

/-! ### Character-level lemmas -/

theorem toNat_ofNat_small {n : Nat} (h : n < 55296) : (Char.ofNat n).toNat = n := by
  rw [Char.ofNat, dif_pos (Or.inl h)]
  rfl

theorem toLower_toLower (c : Char) : c.toLower.toLower = c.toLower := by
  unfold Char.toLower
  by_cases h : c.toNat ≥ 65 ∧ c.toNat ≤ 90
  · rw [if_pos h]
    have h32 : (Char.ofNat (c.toNat + 32)).toNat = c.toNat + 32 :=
      toNat_ofNat_small (by omega)
    rw [if_neg (by omega)]
  · rw [if_neg h, if_neg h]

theorem lowerStr_idem (s : Str) : lowerStr (lowerStr s) = lowerStr s := by
  simp only [lowerStr, List.map_map]
  exact List.map_congr_left (fun c _ => toLower_toLower c)

theorem lowerStr_fix {s : Str} (h : ∀ c ∈ s, c.toLower = c) : lowerStr s = s := by
  rw [lowerStr, List.map_congr_left h]
  simp

theorem space_isSpaceChar : isSpaceChar ' ' = true := by decide

theorem space_keepChar : keepChar ' ' = true := by decide

/-! ### `dropTrailingWS` and `stripWS` lemmas -/

theorem dropTrailingWS_all_space {l : Str} (h : ∀ c ∈ l, isSpaceChar c = true) :
    dropTrailingWS l = [] := by
  induction l with
  | nil => rfl
  | cons c rest ih =>
    have hr : dropTrailingWS rest = [] :=
      ih (fun x hx => h x (List.mem_cons_of_mem c hx))
    simp [dropTrailingWS, hr, h c (List.mem_cons_self c rest)]

theorem dropTrailingWS_append_space {l t : Str}
    (h : ∀ c ∈ t, isSpaceChar c = true) :
    dropTrailingWS (l ++ t) = dropTrailingWS l := by
  induction l with
  | nil => simpa using dropTrailingWS_all_space h
  | cons c rest ih =>
    have : (c :: rest) ++ t = c :: (rest ++ t) := rfl
    rw [this]
    simp only [dropTrailingWS]
    rw [ih]

theorem dropTrailingWS_decomp (l : Str) :
    ∃ t, l = dropTrailingWS l ++ t ∧ ∀ c ∈ t, isSpaceChar c = true := by
  induction l with
  | nil => exact ⟨[], rfl, by simp⟩
  | cons c rest ih =>
    obtain ⟨t, ht, hsp⟩ := ih
    by_cases hr : (dropTrailingWS rest).isEmpty
    · rw [List.isEmpty_iff] at hr
      by_cases hc : isSpaceChar c
      · refine ⟨c :: rest, ?_, ?_⟩
        · simp [dropTrailingWS, List.isEmpty_iff, hr, hc]
        · intro x hx
          rcases List.mem_cons.mp hx with h1 | h1
          · exact h1 ▸ hc
          · have := ht ▸ h1
            rw [hr, List.nil_append] at this
            exact hsp x this
      · refine ⟨t, ?_, hsp⟩
        have : dropTrailingWS (c :: rest) = [c] := by
          simp [dropTrailingWS, List.isEmpty_iff, hr, hc]
        rw [this]
        have h2 : rest = t := by rw [ht, hr, List.nil_append]
        simp [h2]
    · refine ⟨t, ?_, hsp⟩
      have : dropTrailingWS (c :: rest) = c :: dropTrailingWS rest := by
        simp only [dropTrailingWS]
        rw [if_neg hr]
      rw [this, List.cons_append, ← ht]

theorem dropTrailingWS_subset {l : Str} {c : Char} (h : c ∈ dropTrailingWS l) :
    c ∈ l := by
  obtain ⟨t, ht, _⟩ := dropTrailingWS_decomp l
  rw [ht]
  exact List.mem_append_left t h

theorem stripWS_subset {l : Str} {c : Char} (h : c ∈ stripWS l) : c ∈ l :=
  List.dropWhile_subset _ (dropTrailingWS_subset h)

/-! ### `takeWhile` / `dropWhile` helpers -/

theorem dropWhile_nil_iff {α} {p : α → Bool} {l : List α} :
    l.dropWhile p = [] ↔ ∀ x ∈ l, p x = true := by
  induction l with
  | nil => simp
  | cons a l ih =>
    by_cases ha : p a
    · rw [List.dropWhile_cons_of_pos ha]
      simp [ha, ih]
    · rw [List.dropWhile_cons_of_neg ha]
      simp only [List.mem_cons]
      constructor
      · intro h; exact absurd h (List.cons_ne_nil a l)
      · intro h; exact absurd (h a (Or.inl rfl)) ha

theorem takeWhile_self_iff {α} {p : α → Bool} {l : List α} :
    l.takeWhile p = l ↔ ∀ x ∈ l, p x = true := by
  constructor
  · intro h x hx
    exact List.mem_takeWhile_imp (h ▸ hx)
  · intro h
    induction l with
    | nil => rfl
    | cons a l ih =>
      rw [List.takeWhile_cons_of_pos (h a (List.mem_cons_self a l)),
        ih (fun x hx => h x (List.mem_cons_of_mem a hx))]

theorem dropWhile_dropWhile {α} {p : α → Bool} (l : List α) :
    (l.dropWhile p).dropWhile p = l.dropWhile p := by
  rcases h : l.dropWhile p with _ | ⟨c, t⟩
  · rfl
  · rw [List.dropWhile_cons_of_neg]
    simp [dropWhile_head_not p l h]

/-! ### `splitWS` lemmas -/

theorem splitWSAcc_nil (cur : Str) :
    splitWSAcc cur [] = if cur.isEmpty then [] else [cur.reverse] := rfl

theorem splitWSAcc_cons_space {c : Char} (hc : isSpaceChar c = true)
    (cur rest : Str) :
    splitWSAcc cur (c :: rest) =
      if cur.isEmpty then splitWSAcc [] rest
      else cur.reverse :: splitWSAcc [] rest := by
  rw [splitWSAcc, if_pos hc]

theorem splitWSAcc_cons_nonspace {c : Char} (hc : isSpaceChar c = false)
    (cur rest : Str) :
    splitWSAcc cur (c :: rest) = splitWSAcc (c :: cur) rest := by
  rw [splitWSAcc, if_neg (by simp [hc])]

theorem splitWSAcc_dropWhile (s : Str) :
    splitWSAcc [] s = splitWSAcc [] (s.dropWhile isSpaceChar) := by
  induction s with
  | nil => rfl
  | cons c rest ih =>
    by_cases hc : isSpaceChar c
    · rw [splitWSAcc_cons_space hc]
      simp only [List.isEmpty_nil, if_true]
      rw [ih, List.dropWhile_cons_of_pos hc]
    · rw [List.dropWhile_cons_of_neg hc]

theorem splitWSAcc_mid :
    ∀ (rest cur : Str), cur ≠ [] →
    splitWSAcc cur rest =
      (cur.reverse ++ rest.takeWhile (fun x => !isSpaceChar x)) ::
        splitWSAcc [] (rest.dropWhile (fun x => !isSpaceChar x)) := by
  intro rest
  induction rest with
  | nil =>
    intro cur hcur
    rw [splitWSAcc_nil, if_neg (by simpa using hcur)]
    simp [splitWSAcc_nil]
  | cons c rest ih =>
    intro cur hcur
    by_cases hc : isSpaceChar c
    · have h2 : splitWSAcc [] (c :: rest) = splitWSAcc [] rest := by
        rw [splitWSAcc_cons_space hc]
        simp only [List.isEmpty_nil, if_true]
      rw [splitWSAcc_cons_space hc cur rest, if_neg (by simpa using hcur),
        List.takeWhile_cons_of_neg (by simp [hc]),
        List.dropWhile_cons_of_neg (by simp [hc]), List.append_nil, h2]
    · rw [splitWSAcc_cons_nonspace (Bool.eq_false_iff.mpr hc),
        ih (c :: cur) (List.cons_ne_nil c cur),
        List.takeWhile_cons_of_pos (by simp [hc]),
        List.dropWhile_cons_of_pos (by simp [hc])]
      rw [List.reverse_cons, List.append_assoc]
      rfl

theorem splitWS_of_nil {s : Str} (h : s.dropWhile isSpaceChar = []) :
    splitWS s = [] := by
  rw [splitWS, splitWSAcc_dropWhile, h]
  rfl

theorem splitWS_of_cons {s : Str} {c : Char} {t : Str}
    (h : s.dropWhile isSpaceChar = c :: t) :
    splitWS s = ((c :: t).takeWhile (fun x => !isSpaceChar x)) ::
      splitWS ((c :: t).dropWhile (fun x => !isSpaceChar x)) := by
  have hc : isSpaceChar c = false := dropWhile_head_not _ _ h
  rw [splitWS, splitWSAcc_dropWhile, h, splitWSAcc_cons_nonspace hc,
    splitWSAcc_mid t [c] (List.cons_ne_nil c []),
    List.takeWhile_cons_of_pos (by simp [hc]),
    List.dropWhile_cons_of_pos (by simp [hc])]
  rfl

theorem splitWS_nil : splitWS [] = [] :=
  splitWS_of_nil rfl

theorem splitWS_cons_space {c : Char} {s : Str} (hc : isSpaceChar c = true) :
    splitWS (c :: s) = splitWS s := by
  rcases h : s.dropWhile isSpaceChar with _ | ⟨d, u⟩
  · rw [splitWS_of_nil h, splitWS_of_nil]
    rw [List.dropWhile_cons_of_pos hc, h]
  · rw [splitWS_of_cons h, splitWS_of_cons]
    rw [List.dropWhile_cons_of_pos hc, h]

theorem splitWS_words {s : Str} :
    ∀ w ∈ splitWS s, w ≠ [] ∧ ∀ c ∈ w, isSpaceChar c = false ∧ c ∈ s := by
  generalize hn : s.length = n
  induction n using Nat.strong_induction_on generalizing s with
  | _ n ihn =>
    rcases h : s.dropWhile isSpaceChar with _ | ⟨c, t⟩
    · rw [splitWS_of_nil h]; simp
    · have hlen : ((c :: t).dropWhile (fun x => !isSpaceChar x)).length < n := by
        have hc9 : isSpaceChar c = false := dropWhile_head_not _ _ h
        have h1 : ((c :: t).dropWhile (fun x => !isSpaceChar x)) =
            t.dropWhile (fun x => !isSpaceChar x) := by
          rw [List.dropWhile_cons_of_pos (by simp [hc9])]
        have h2 : (t.dropWhile (fun x => !isSpaceChar x)).length ≤ t.length :=
          (List.dropWhile_sublist _).length_le
        have h3 : (c :: t).length ≤ s.length := by
          rw [← h]; exact (List.dropWhile_sublist _).length_le
        rw [h1, ← hn]
        simp only [List.length_cons] at h3
        omega
      have ih := ihn _ hlen (s := (c :: t).dropWhile (fun x => !isSpaceChar x)) rfl
      rw [splitWS_of_cons h]
      intro w hw
      have hsub : ∀ x, x ∈ (c :: t) → x ∈ s := by
        intro x hx
        exact List.dropWhile_subset isSpaceChar (h ▸ hx)
      rcases List.mem_cons.mp hw with h1 | h1
      · subst h1
        have hc : isSpaceChar c = false := dropWhile_head_not _ _ h
        constructor
        · rw [List.takeWhile_cons_of_pos (by simp [hc])]
          simp
        · intro x hx
          have hxs : x ∈ c :: t := List.takeWhile_subset _ hx
          refine ⟨?_, hsub x hxs⟩
          have := List.mem_takeWhile_imp hx
          simpa using this
      · obtain ⟨hne, hrest⟩ := ih w h1
        refine ⟨hne, fun x hx => ?_⟩
        obtain ⟨hsp, hmem⟩ := hrest x hx
        exact ⟨hsp, hsub x (List.dropWhile_subset _ hmem)⟩

theorem splitWS_append_space (s : Str) :
    ∀ t : Str, (∀ c ∈ t, isSpaceChar c = true) → splitWS (s ++ t) = splitWS s := by
  generalize hn : s.length = n
  induction n using Nat.strong_induction_on generalizing s with
  | _ n ihn =>
  rcases h : s.dropWhile isSpaceChar with _ | ⟨c, u⟩
  · intro t ht
    rw [splitWS_of_nil h, splitWS_of_nil]
    rw [dropWhile_nil_iff]
    intro x hx
    rcases List.mem_append.mp hx with h1 | h1
    · exact dropWhile_nil_iff.mp h x h1
    · exact ht x h1
  · have hc : isSpaceChar c = false := dropWhile_head_not _ _ h
    have hlen : ((c :: u).dropWhile (fun x => !isSpaceChar x)).length < n := by
      have h1 : ((c :: u).dropWhile (fun x => !isSpaceChar x)) =
          u.dropWhile (fun x => !isSpaceChar x) := by
        rw [List.dropWhile_cons_of_pos (by simp [hc])]
      have h2 : (u.dropWhile (fun x => !isSpaceChar x)).length ≤ u.length :=
        (List.dropWhile_sublist _).length_le
      have h3 : (c :: u).length ≤ s.length := by
        rw [← h]; exact (List.dropWhile_sublist _).length_le
      rw [h1, ← hn]
      simp only [List.length_cons] at h3
      omega
    have ih := ihn _ hlen
      (s := (c :: u).dropWhile (fun x => !isSpaceChar x)) rfl
    intro t ht
    have hd : (s ++ t).dropWhile isSpaceChar = c :: (u ++ t) := by
      rw [List.dropWhile_append, h]
      simp
    rw [splitWS_of_cons h, splitWS_of_cons hd]
    have htake : t.takeWhile (fun x => !isSpaceChar x) = [] := by
      rcases t with _ | ⟨a, t'⟩
      · rfl
      · rw [List.takeWhile_cons_of_neg]
        simp [ht a (List.mem_cons_self a t')]
    by_cases hall : ∀ x ∈ u, (!isSpaceChar x) = true
    · -- the whole of `c :: u` is one word; the appended spaces split off
      have hu : u.takeWhile (fun x => !isSpaceChar x) = u :=
        takeWhile_self_iff.mpr hall
      have htw : (c :: (u ++ t)).takeWhile (fun x => !isSpaceChar x) =
          (c :: u).takeWhile (fun x => !isSpaceChar x) := by
        rw [List.takeWhile_cons_of_pos (by simp [hc]),
            List.takeWhile_cons_of_pos (by simp [hc])]
        rw [List.takeWhile_append, hu]
        simp [htake]
      have hdt : t.dropWhile (fun x => !isSpaceChar x) = t := by
        rcases t with _ | ⟨a, t'⟩
        · rfl
        · rw [List.dropWhile_cons_of_neg]
          simp [ht a (List.mem_cons_self a t')]
      have hdw : (c :: (u ++ t)).dropWhile (fun x => !isSpaceChar x) = t := by
        rw [List.dropWhile_cons_of_pos (by simp [hc]), List.dropWhile_append]
        rw [dropWhile_nil_iff.mpr hall]
        simpa using hdt
      have hdw2 : (c :: u).dropWhile (fun x => !isSpaceChar x) = [] := by
        rw [List.dropWhile_cons_of_pos (by simp [hc])]
        exact dropWhile_nil_iff.mpr hall
      rw [htw, hdw, hdw2, splitWS_nil, splitWS_of_nil (dropWhile_nil_iff.mpr ht)]
    · -- the word ends inside `c :: u`
      push_neg at hall
      obtain ⟨x0, hx0, hx0s⟩ := hall
      have hx0sp : isSpaceChar x0 = true := by simpa using hx0s
      have htw : (c :: (u ++ t)).takeWhile (fun x => !isSpaceChar x) =
          (c :: u).takeWhile (fun x => !isSpaceChar x) := by
        rw [List.takeWhile_cons_of_pos (by simp [hc]),
            List.takeWhile_cons_of_pos (by simp [hc])]
        rw [List.takeWhile_append]
        rw [if_neg]
        intro hlen
        have hself : u.takeWhile (fun x => !isSpaceChar x) = u :=
          (List.takeWhile_sublist _).eq_of_length hlen
        have := takeWhile_self_iff.mp hself x0 hx0
        simp [hx0sp] at this
      have hdw : (c :: (u ++ t)).dropWhile (fun x => !isSpaceChar x) =
          ((c :: u).dropWhile (fun x => !isSpaceChar x)) ++ t := by
        rw [List.dropWhile_cons_of_pos (by simp [hc]),
            List.dropWhile_cons_of_pos (by simp [hc])]
        rw [List.dropWhile_append]
        rw [if_neg]
        intro hemp
        rw [List.isEmpty_iff, dropWhile_nil_iff] at hemp
        have := hemp x0 hx0
        simp [hx0sp] at this
      rw [htw, hdw, ih t ht]

theorem splitWS_dropWhile (s : Str) :
    splitWS (s.dropWhile isSpaceChar) = splitWS s := by
  rcases h : s.dropWhile isSpaceChar with _ | ⟨c, t⟩
  · rw [splitWS_of_nil h, splitWS_nil]
  · have hc : isSpaceChar c = false := dropWhile_head_not _ _ h
    rw [splitWS_of_cons h, splitWS_of_cons (List.dropWhile_cons_of_neg (by simp [hc]))]

theorem splitWS_stripWS (s : Str) : splitWS (stripWS s) = splitWS s := by
  obtain ⟨t, ht, hsp⟩ := dropTrailingWS_decomp (s.dropWhile isSpaceChar)
  calc splitWS (stripWS s)
      = splitWS (stripWS s ++ t) := (splitWS_append_space _ t hsp).symm
    _ = splitWS (s.dropWhile isSpaceChar) := by rw [stripWS, ← ht]
    _ = splitWS s := splitWS_dropWhile s

/-! ### `collapseWS` lemmas -/

theorem collapseWS_cons₂ (c d : Char) (rest : Str) :
    collapseWS (c :: d :: rest) =
      if isSpaceChar c then
        (if isSpaceChar d then collapseWS (d :: rest)
         else ' ' :: collapseWS (d :: rest))
      else c :: collapseWS (d :: rest) := by
  rw [collapseWS]

theorem collapseWS_single (c : Char) :
    collapseWS [c] = if isSpaceChar c then [' '] else [c] := rfl

theorem collapseWS_cons_nonspace {c : Char} (hc : isSpaceChar c = false)
    (l : Str) : collapseWS (c :: l) = c :: collapseWS l := by
  rcases l with _ | ⟨d, r⟩
  · rw [collapseWS_single, if_neg (by simp [hc])]
    rfl
  · rw [collapseWS_cons₂, if_neg (by simp [hc])]

theorem collapseWS_cons_space {c : Char} (hc : isSpaceChar c = true) :
    ∀ l : Str, collapseWS (c :: l) = ' ' :: collapseWS (l.dropWhile isSpaceChar) := by
  intro l
  induction l generalizing c with
  | nil => rw [collapseWS_single, if_pos hc]; rfl
  | cons d r ih =>
    by_cases hd : isSpaceChar d
    · rw [collapseWS_cons₂, if_pos hc, if_pos hd,
        List.dropWhile_cons_of_pos hd, ih hd]
    · rw [collapseWS_cons₂, if_pos hc, if_neg hd,
        List.dropWhile_cons_of_neg hd]

theorem collapseWS_append_nonspace {w : Str}
    (hw : ∀ c ∈ w, isSpaceChar c = false) (z : Str) :
    collapseWS (w ++ z) = w ++ collapseWS z := by
  induction w with
  | nil => rfl
  | cons a w ih =>
    have ha : isSpaceChar a = false := hw a (List.mem_cons_self a w)
    rw [List.cons_append, collapseWS_cons_nonspace ha,
      ih (fun c hc => hw c (List.mem_cons_of_mem a hc)), List.cons_append]

theorem collapseWS_all_space {l : Str} (h : ∀ c ∈ l, isSpaceChar c = true)
    (hne : l ≠ []) : collapseWS l = [' '] := by
  rcases l with _ | ⟨c, r⟩
  · exact absurd rfl hne
  · rw [collapseWS_cons_space (h c (List.mem_cons_self c r))]
    rw [dropWhile_nil_iff.mpr (fun x hx => h x (List.mem_cons_of_mem c hx))]
    rfl

theorem collapseWS_subset {l : Str} :
    ∀ c ∈ collapseWS l, c ∈ l ∨ c = ' ' := by
  induction l with
  | nil =>
    intro c hc
    rw [show collapseWS [] = [] from rfl] at hc
    exact absurd hc (List.not_mem_nil c)
  | cons a r ih =>
    intro x hx
    rcases r with _ | ⟨d, rest⟩
    · rw [collapseWS_single] at hx
      by_cases ha : isSpaceChar a
      · rw [if_pos ha] at hx
        simp at hx
        exact Or.inr hx
      · rw [if_neg ha] at hx
        simp at hx
        exact Or.inl (by simp [hx])
    · rw [collapseWS_cons₂] at hx
      by_cases ha : isSpaceChar a
      · rw [if_pos ha] at hx
        by_cases hd : isSpaceChar d
        · rw [if_pos hd] at hx
          rcases ih x hx with h | h
          · exact Or.inl (List.mem_cons_of_mem a h)
          · exact Or.inr h
        · rw [if_neg hd] at hx
          rcases List.mem_cons.mp hx with h | h
          · exact Or.inr h
          · rcases ih x h with h' | h'
            · exact Or.inl (List.mem_cons_of_mem a h')
            · exact Or.inr h'
      · rw [if_neg ha] at hx
        rcases List.mem_cons.mp hx with h | h
        · exact Or.inl (by simp [h])
        · rcases ih x h with h' | h'
          · exact Or.inl (List.mem_cons_of_mem a h')
          · exact Or.inr h'

/-! ### More `stripWS` lemmas and the canonical form of `stripWS ∘ collapseWS` -/

theorem dropTrailingWS_cons (c : Char) (x : Str) :
    dropTrailingWS (c :: x) =
      if (dropTrailingWS x).isEmpty then (if isSpaceChar c then [] else [c])
      else c :: dropTrailingWS x := rfl

theorem stripWS_cons_space {a : Char} (ha : isSpaceChar a = true) (x : Str) :
    stripWS (a :: x) = stripWS x := by
  rw [stripWS, List.dropWhile_cons_of_pos ha, stripWS]

theorem dropTrailingWS_all_nonspace {l : Str}
    (h : ∀ c ∈ l, isSpaceChar c = false) : dropTrailingWS l = l := by
  induction l with
  | nil => rfl
  | cons c rest ih =>
    have hr : dropTrailingWS rest = rest :=
      ih (fun x hx => h x (List.mem_cons_of_mem c hx))
    rw [dropTrailingWS_cons, hr]
    rcases rest with _ | ⟨d, r⟩
    · simp [h c (List.mem_cons_self c [])]
    · rw [if_neg (by simp)]

theorem dropTrailingWS_append_nonspace {w : Str}
    (hw : ∀ c ∈ w, isSpaceChar c = false) (x : Str) :
    dropTrailingWS (w ++ x) = w ++ dropTrailingWS x := by
  induction w with
  | nil => rfl
  | cons a w ih =>
    have ha : isSpaceChar a = false := hw a (List.mem_cons_self a w)
    have ihw := ih (fun c hc => hw c (List.mem_cons_of_mem a hc))
    rw [List.cons_append, dropTrailingWS_cons, ihw]
    by_cases hemp : (w ++ dropTrailingWS x).isEmpty
    · rw [if_pos hemp, if_neg (by simp [ha])]
      rw [List.isEmpty_iff, List.append_eq_nil] at hemp
      simp [hemp.1, hemp.2]
    · rw [if_neg hemp, List.cons_append]

theorem stripWS_append_nonspace {a : Char} {w : Str}
    (hw : ∀ c ∈ a :: w, isSpaceChar c = false) (x : Str) :
    stripWS ((a :: w) ++ x) = (a :: w) ++ dropTrailingWS x := by
  rw [stripWS, List.cons_append,
    List.dropWhile_cons_of_neg (by simp [hw a (List.mem_cons_self a w)]),
    ← List.cons_append, dropTrailingWS_append_nonspace hw]

theorem stripWS_collapseWS_space_front :
    ∀ (p z : Str), (∀ c ∈ p, isSpaceChar c = true) →
    stripWS (collapseWS (p ++ z)) = stripWS (collapseWS z) := by
  intro p
  induction p with
  | nil => intro z _; rfl
  | cons a p ih =>
    intro z hp
    have ha : isSpaceChar a = true := hp a (List.mem_cons_self a p)
    rcases hpz : p ++ z with _ | ⟨d, r⟩
    · obtain ⟨hp0, hz0⟩ := List.append_eq_nil.mp hpz
      subst hz0
      subst hp0
      rw [show ([a] ++ [] : Str) = [a] from rfl, collapseWS_single, if_pos ha]
      rfl
    · rw [List.cons_append, hpz]
      by_cases hd : isSpaceChar d
      · rw [collapseWS_cons₂, if_pos ha, if_pos hd, ← hpz]
        rcases p with _ | ⟨e, p'⟩
        · rw [List.nil_append]
        · exact ih z (fun c hc => hp c (List.mem_cons_of_mem a hc))
      · -- the space run ends at `a`; `p` must be empty
        rcases p with _ | ⟨e, p'⟩
        · simp only [List.nil_append] at hpz
          subst hpz
          rw [collapseWS_cons₂, if_pos ha, if_neg hd,
            stripWS_cons_space space_isSpaceChar]
        · exfalso
          have he : isSpaceChar e = true :=
            hp e (List.mem_cons_of_mem a (List.mem_cons_self e p'))
          have hed : e = d := by
            have := congrArg (fun l => l.head?) hpz
            simpa using this
          rw [hed] at he
          exact absurd he (by simp [hd])

theorem joinSep_cons {sep : Char} {w : Str} {ws : List Str} (h : ws ≠ []) :
    joinSep sep (w :: ws) = w ++ sep :: joinSep sep ws := by
  rcases ws with _ | ⟨w', ws'⟩
  · exact absurd rfl h
  · rfl

theorem joinSep_ne_nil {sep : Char} {w : Str} {ws : List Str} (h : w ≠ []) :
    joinSep sep (w :: ws) ≠ [] := by
  rcases ws with _ | ⟨w', ws'⟩
  · exact h
  · rw [joinSep_cons (List.cons_ne_nil w' ws')]
    simp [h]

/-- Canonical form: stripping a collapsed string is the single-space join of
its whitespace-split words. -/
theorem stripWS_collapseWS (v : Str) :
    stripWS (collapseWS v) = joinSep ' ' (splitWS v) := by
  generalize hn : v.length = n
  induction n using Nat.strong_induction_on generalizing v with
  | _ n ihn =>
  rcases h : v.dropWhile isSpaceChar with _ | ⟨c, u⟩
  · rw [splitWS_of_nil h]
    have hall : ∀ c ∈ v, isSpaceChar c = true := dropWhile_nil_iff.mp h
    rcases hv : v with _ | ⟨c, t⟩
    · rfl
    · rw [collapseWS_all_space (hv ▸ hall) (List.cons_ne_nil c t)]
      rfl
  · have hc : isSpaceChar c = false := dropWhile_head_not _ _ h
    have hlen : ((c :: u).dropWhile (fun x => !isSpaceChar x)).length < n := by
      have h1 : ((c :: u).dropWhile (fun x => !isSpaceChar x)) =
          u.dropWhile (fun x => !isSpaceChar x) := by
        rw [List.dropWhile_cons_of_pos (by simp [hc])]
      have h2 : (u.dropWhile (fun x => !isSpaceChar x)).length ≤ u.length :=
        (List.dropWhile_sublist _).length_le
      have h3 : (c :: u).length ≤ v.length := by
        rw [← h]; exact (List.dropWhile_sublist _).length_le
      rw [h1, ← hn]
      simp only [List.length_cons] at h3
      omega
    have ih := ihn _ hlen
      (v := (c :: u).dropWhile (fun x => !isSpaceChar x)) rfl
    have hv : v.takeWhile isSpaceChar ++ (c :: u) = v := by
      rw [← h]; exact List.takeWhile_append_dropWhile isSpaceChar v
    have hsp : ∀ x ∈ v.takeWhile isSpaceChar, isSpaceChar x = true :=
      fun x hx => List.mem_takeWhile_imp hx
    have step1 : stripWS (collapseWS v) = stripWS (collapseWS (c :: u)) := by
      rw [← hv]
      exact stripWS_collapseWS_space_front _ _ hsp
    obtain ⟨w, r, hw, hr⟩ :
        ∃ w r, w = (c :: u).takeWhile (fun x => !isSpaceChar x) ∧
          r = (c :: u).dropWhile (fun x => !isSpaceChar x) := ⟨_, _, rfl, rfl⟩
    have hwr : w ++ r = c :: u := by
      rw [hw, hr]; exact List.takeWhile_append_dropWhile _ (c :: u)
    have hwne : ∀ x ∈ w, isSpaceChar x = false := by
      intro x hx
      have := List.mem_takeWhile_imp (hw ▸ hx)
      simpa using this
    have hwcons : w = c :: u.takeWhile (fun x => !isSpaceChar x) := by
      rw [hw, List.takeWhile_cons_of_pos (by simp [hc])]
    have step2 : stripWS (collapseWS (c :: u)) =
        w ++ dropTrailingWS (collapseWS r) := by
      rw [← hwr, collapseWS_append_nonspace hwne, hwcons,
        stripWS_append_nonspace (hwcons ▸ hwne)]
    have hihJ : stripWS (collapseWS r) = joinSep ' ' (splitWS r) := by
      rw [hr]; exact ih
    rw [step1, step2, splitWS_of_cons h, ← hw, ← hr]
    by_cases hrnil : r = []
    · rw [hrnil, splitWS_nil, show collapseWS [] = [] from rfl,
        show dropTrailingWS [] = ([] : Str) from rfl, List.append_nil]
      rfl
    · obtain ⟨d, r₂, hrc⟩ := List.exists_cons_of_ne_nil hrnil
      have hd : isSpaceChar d = true := by
        have h2 := dropWhile_head_not (fun x => !isSpaceChar x) (c :: u)
          (hr.symm.trans hrc)
        simpa using h2
      rcases hr4 : r.dropWhile isSpaceChar with _ | ⟨e, r₅⟩
      · -- everything after the word is whitespace
        have hallr : ∀ x ∈ r, isSpaceChar x = true := dropWhile_nil_iff.mp hr4
        rw [splitWS_of_nil hr4, collapseWS_all_space hallr hrnil,
          show dropTrailingWS [' '] = ([] : Str) from rfl, List.append_nil]
        rfl
      · -- a further word follows
        have he : isSpaceChar e = false := dropWhile_head_not _ _ hr4
        have hsplit_r : splitWS r ≠ [] := by
          rw [splitWS_of_cons hr4]
          exact List.cons_ne_nil _ _
        have hcr : collapseWS r = ' ' :: collapseWS (r.dropWhile isSpaceChar) := by
          conv_lhs => rw [hrc]
          rw [collapseWS_cons_space hd]
          congr 1
          rw [hrc, List.dropWhile_cons_of_pos hd]
        have hx_head : collapseWS (r.dropWhile isSpaceChar) =
            e :: collapseWS r₅ := by
          rw [hr4, collapseWS_cons_nonspace he]
        have hdt_strip : dropTrailingWS (collapseWS (r.dropWhile isSpaceChar)) =
            stripWS (collapseWS (r.dropWhile isSpaceChar)) := by
          rw [stripWS]
          congr 1
          rw [hx_head, List.dropWhile_cons_of_neg (by simp [he])]
        have hJ2 : stripWS (collapseWS (r.dropWhile isSpaceChar)) =
            joinSep ' ' (splitWS r) := by
          rw [← hihJ, hcr, stripWS_cons_space space_isSpaceChar]
        have hJne : joinSep ' ' (splitWS r) ≠ [] := by
          rw [splitWS_of_cons hr4]
          apply joinSep_ne_nil
          rw [List.takeWhile_cons_of_pos (by simp [he])]
          exact List.cons_ne_nil _ _
        rw [hcr, dropTrailingWS_cons, hdt_strip, hJ2,
          if_neg (by simpa using hJne), joinSep_cons hsplit_r]

/-! ### Joined word lists -/

theorem splitWS_space_front {p : Str} (hp : ∀ c ∈ p, isSpaceChar c = true)
    (x : Str) : splitWS (p ++ x) = splitWS x := by
  induction p with
  | nil => rfl
  | cons a p ih =>
    rw [List.cons_append, splitWS_cons_space (hp a (List.mem_cons_self a p)),
      ih (fun c hc => hp c (List.mem_cons_of_mem a hc))]

theorem joinSep_mem {sep : Char} {ws : List Str} :
    ∀ c ∈ joinSep sep ws, c = sep ∨ ∃ w ∈ ws, c ∈ w := by
  induction ws with
  | nil => intro c hc; exact absurd hc (List.not_mem_nil c)
  | cons w ws ih =>
    intro c hc
    rcases ws with _ | ⟨w', ws'⟩
    · exact Or.inr ⟨w, List.mem_cons_self w [], hc⟩
    · rw [joinSep_cons (List.cons_ne_nil w' ws')] at hc
      rcases List.mem_append.mp hc with h | h
      · exact Or.inr ⟨w, List.mem_cons_self w _, h⟩
      · rcases List.mem_cons.mp h with h1 | h1
        · exact Or.inl h1
        · rcases ih c h1 with h2 | h2
          · exact Or.inl h2
          · obtain ⟨w₂, hw₂, hcw⟩ := h2
            exact Or.inr ⟨w₂, List.mem_cons_of_mem w hw₂, hcw⟩

theorem collapseWS_self_nonspace {w : Str}
    (hw : ∀ c ∈ w, isSpaceChar c = false) : collapseWS w = w := by
  have h2 := collapseWS_append_nonspace hw []
  rw [List.append_nil] at h2
  rw [h2, show collapseWS [] = [] from rfl, List.append_nil]

theorem joinSep_head_cons {w : Str} {ws : List Str} {a : Char} {w' : Str}
    (hwa : w = a :: w') :
    ∃ z, joinSep ' ' (w :: ws) = a :: z := by
  rcases ws with _ | ⟨w₂, ws₂⟩
  · exact ⟨w', hwa ▸ rfl⟩
  · rw [joinSep_cons (List.cons_ne_nil w₂ ws₂), hwa]
    exact ⟨w' ++ ' ' :: joinSep ' ' (w₂ :: ws₂), rfl⟩

theorem collapseWS_joinSep {ws : List Str}
    (h : ∀ w ∈ ws, w ≠ [] ∧ ∀ c ∈ w, isSpaceChar c = false) :
    collapseWS (joinSep ' ' ws) = joinSep ' ' ws := by
  induction ws with
  | nil => rfl
  | cons w ws ih =>
    obtain ⟨hne, hnsp⟩ := h w (List.mem_cons_self w ws)
    rcases ws with _ | ⟨w', ws'⟩
    · exact collapseWS_self_nonspace hnsp
    · rw [joinSep_cons (List.cons_ne_nil w' ws'),
        collapseWS_append_nonspace hnsp]
      obtain ⟨hne', _⟩ := h w' (List.mem_cons_of_mem w (List.mem_cons_self w' ws'))
      obtain ⟨a, w'', hwa⟩ := List.exists_cons_of_ne_nil hne'
      obtain ⟨z, hz⟩ := joinSep_head_cons hwa
      have ha : isSpaceChar a = false := by
        have := h w' (List.mem_cons_of_mem w (List.mem_cons_self w' ws'))
        exact this.2 a (hwa ▸ List.mem_cons_self a w'')
      rw [collapseWS_cons_space space_isSpaceChar, hz,
        List.dropWhile_cons_of_neg (by simp [ha]), ← hz,
        ih (fun x hx => h x (List.mem_cons_of_mem w hx))]

theorem splitWS_joinSep {ws : List Str}
    (h : ∀ w ∈ ws, w ≠ [] ∧ ∀ c ∈ w, isSpaceChar c = false) :
    splitWS (joinSep ' ' ws) = ws := by
  induction ws with
  | nil => exact splitWS_nil
  | cons w ws ih =>
    obtain ⟨hne, hnsp⟩ := h w (List.mem_cons_self w ws)
    obtain ⟨a, w', hwa⟩ := List.exists_cons_of_ne_nil hne
    have ha : isSpaceChar a = false := hnsp a (hwa ▸ List.mem_cons_self a w')
    have hwall : ∀ x ∈ w, (!isSpaceChar x) = true := by
      intro x hx; simp [hnsp x hx]
    rcases ws with _ | ⟨w₂, ws₂⟩
    · -- single word
      have hdw : w.dropWhile isSpaceChar = a :: w' := by
        rw [hwa, List.dropWhile_cons_of_neg (by simp [ha])]
      have hjw : joinSep ' ' [w] = w := rfl
      rw [hjw, splitWS_of_cons hdw, ← hwa,
        takeWhile_self_iff.mpr hwall, dropWhile_nil_iff.mpr hwall, splitWS_nil]
    · -- several words
      rw [joinSep_cons (List.cons_ne_nil w₂ ws₂)]
      have hd : (w ++ ' ' :: joinSep ' ' (w₂ :: ws₂)).dropWhile isSpaceChar =
          a :: (w' ++ ' ' :: joinSep ' ' (w₂ :: ws₂)) := by
        rw [hwa, List.cons_append, List.dropWhile_cons_of_neg (by simp [ha])]
      have htk : (w ++ ' ' :: joinSep ' ' (w₂ :: ws₂)).takeWhile
          (fun x => !isSpaceChar x) = w := by
        rw [List.takeWhile_append, takeWhile_self_iff.mpr hwall]
        rw [if_pos rfl, List.takeWhile_cons_of_neg (by simp [space_isSpaceChar])]
        exact List.append_nil w
      have hdr : (w ++ ' ' :: joinSep ' ' (w₂ :: ws₂)).dropWhile
          (fun x => !isSpaceChar x) = ' ' :: joinSep ' ' (w₂ :: ws₂) := by
        rw [List.dropWhile_append, dropWhile_nil_iff.mpr hwall]
        rw [if_pos (by rfl),
          List.dropWhile_cons_of_neg (by simp [space_isSpaceChar])]
      have hdecomp : w ++ ' ' :: joinSep ' ' (w₂ :: ws₂) =
          a :: (w' ++ ' ' :: joinSep ' ' (w₂ :: ws₂)) := by
        rw [hwa, List.cons_append]
      rw [hdecomp, splitWS_of_cons (hdecomp ▸ hd), ← hdecomp, htk, hdr,
        splitWS_cons_space space_isSpaceChar,
        ih (fun x hx => h x (List.mem_cons_of_mem w hx))]

theorem stripWS_joinSep {ws : List Str}
    (h : ∀ w ∈ ws, w ≠ [] ∧ ∀ c ∈ w, isSpaceChar c = false) :
    stripWS (joinSep ' ' ws) = joinSep ' ' ws := by
  induction ws with
  | nil => rfl
  | cons w ws ih =>
    obtain ⟨hne, hnsp⟩ := h w (List.mem_cons_self w ws)
    obtain ⟨a, w', hwa⟩ := List.exists_cons_of_ne_nil hne
    have ha : isSpaceChar a = false := hnsp a (hwa ▸ List.mem_cons_self a w')
    rcases ws with _ | ⟨w₂, ws₂⟩
    · have hdw : w.dropWhile isSpaceChar = w := by
        rw [hwa, List.dropWhile_cons_of_neg (by simp [ha])]
      have hjw : joinSep ' ' [w] = w := rfl
      rw [hjw, stripWS, hdw, dropTrailingWS_all_nonspace hnsp]
    · obtain ⟨hne₂, hnsp₂⟩ :=
        h w₂ (List.mem_cons_of_mem w (List.mem_cons_self w₂ ws₂))
      obtain ⟨b, w₂', hwb⟩ := List.exists_cons_of_ne_nil hne₂
      obtain ⟨z, hz⟩ := joinSep_head_cons hwb
      have hb : isSpaceChar b = false := hnsp₂ b (hwb ▸ List.mem_cons_self b w₂')
      have hJne : joinSep ' ' (w₂ :: ws₂) ≠ [] := joinSep_ne_nil hne₂
      have hihJ : stripWS (joinSep ' ' (w₂ :: ws₂)) = joinSep ' ' (w₂ :: ws₂) :=
        ih (fun x hx => h x (List.mem_cons_of_mem w hx))
      have hdw2 : (joinSep ' ' (w₂ :: ws₂)).dropWhile isSpaceChar =
          joinSep ' ' (w₂ :: ws₂) := by
        rw [hz, List.dropWhile_cons_of_neg (by simp [hb])]
      have hdt : dropTrailingWS (joinSep ' ' (w₂ :: ws₂)) =
          joinSep ' ' (w₂ :: ws₂) := by
        have h3 : stripWS (joinSep ' ' (w₂ :: ws₂)) =
            dropTrailingWS (joinSep ' ' (w₂ :: ws₂)) := by
          rw [stripWS, hdw2]
        rw [← h3, hihJ]
      rw [joinSep_cons (List.cons_ne_nil w₂ ws₂), hwa,
        stripWS_append_nonspace (hwa ▸ hnsp), dropTrailingWS_cons, hdt,
        if_neg (by simpa using hJne), ← hwa]

/-! ### Properties of the normalizers -/

theorem splitWS_filter_strip (u : Str) :
    splitWS (List.filter keepChar (stripWS u)) =
      splitWS (List.filter keepChar u) := by
  obtain ⟨t, ht, hts⟩ := dropTrailingWS_decomp (u.dropWhile isSpaceChar)
  have hp : ∀ x ∈ u.takeWhile isSpaceChar, isSpaceChar x = true :=
    fun x hx => List.mem_takeWhile_imp hx
  have hu : u.takeWhile isSpaceChar ++ (stripWS u ++ t) = u := by
    rw [stripWS, ← ht]
    exact List.takeWhile_append_dropWhile isSpaceChar u
  have hkp : List.filter keepChar (u.takeWhile isSpaceChar) =
      u.takeWhile isSpaceChar :=
    List.filter_eq_self.mpr (fun a ha => by simp [keepChar, hp a ha])
  have hkt : List.filter keepChar t = t :=
    List.filter_eq_self.mpr (fun a ha => by simp [keepChar, hts a ha])
  conv_rhs => rw [← hu]
  rw [List.filter_append, List.filter_append, hkp, hkt,
    splitWS_space_front hp, splitWS_append_space _ t hts]

theorem lowerStr_mem_fix {s : Str} {c : Char} (h : c ∈ lowerStr s) :
    c.toLower = c := by
  rw [lowerStr] at h
  obtain ⟨a, _, rfl⟩ := List.mem_map.mp h
  exact toLower_toLower a

theorem joinSep_splitWS_chars {x : Str} :
    ∀ c ∈ joinSep ' ' (splitWS x), c = ' ' ∨ c ∈ x := by
  intro c hc
  rcases joinSep_mem c hc with h | h
  · exact Or.inl h
  · obtain ⟨w, hw, hcw⟩ := h
    exact Or.inr ((splitWS_words w hw).2 c hcw).2

/-- The bridge between the two normalizers: stripping the output of the SRT
cleaner's `normalizar_texto` yields exactly the transcription pipeline's
strip-last normalization. -/
theorem stripWS_normalizar_texto (s : Str) :
    stripWS (normalizar_texto s) = normalizarTextoParalelo s := by
  rw [normalizar_texto, normalizarTextoParalelo, stripWS_collapseWS,
    stripWS_collapseWS, splitWS_filter_strip]

/-- `normalizar_texto` composed with itself strips its own output:
idempotence holds exactly up to boundary whitespace. -/
theorem normalizar_texto_twice (s : Str) :
    normalizar_texto (normalizar_texto s) = stripWS (normalizar_texto s) := by
  have hxk : ∀ c ∈ List.filter keepChar (stripWS (lowerStr s)),
      keepChar c = true := fun c hc => List.of_mem_filter hc
  have hxl : ∀ c ∈ List.filter keepChar (stripWS (lowerStr s)),
      c.toLower = c := fun c hc =>
    lowerStr_mem_fix (stripWS_subset (List.mem_of_mem_filter hc))
  have hstrip : stripWS (normalizar_texto s) =
      joinSep ' ' (splitWS (List.filter keepChar (stripWS (lowerStr s)))) := by
    rw [normalizar_texto, stripWS_collapseWS]
  have hchars : ∀ c ∈ normalizar_texto s,
      c.toLower = c ∧ keepChar c = true := by
    intro c hc
    rw [normalizar_texto] at hc
    rcases collapseWS_subset c hc with h | h
    · exact ⟨hxl c h, hxk c h⟩
    · subst h
      exact ⟨by decide, by decide⟩
  have hlower : lowerStr (normalizar_texto s) = normalizar_texto s :=
    lowerStr_fix (fun c hc => (hchars c hc).1)
  have hnice : ∀ w ∈ splitWS (List.filter keepChar (stripWS (lowerStr s))),
      w ≠ [] ∧ ∀ c ∈ w, isSpaceChar c = false := by
    intro w hw
    obtain ⟨hne, hrest⟩ := splitWS_words w hw
    exact ⟨hne, fun c hc => (hrest c hc).1⟩
  have hfilter : List.filter keepChar (stripWS (normalizar_texto s)) =
      stripWS (normalizar_texto s) := by
    apply List.filter_eq_self.mpr
    intro a ha
    rcases joinSep_splitWS_chars a (hstrip ▸ ha) with h | h
    · subst h; decide
    · exact hxk a h
  conv_lhs => rw [normalizar_texto, hlower]
  rw [hfilter, hstrip, collapseWS_joinSep hnice]

/-- The transcription pipeline's strip-last normalizer is idempotent. -/
theorem normalizarTextoParalelo_idem (s : Str) :
    normalizarTextoParalelo (normalizarTextoParalelo s) =
      normalizarTextoParalelo s := by
  have hxk : ∀ c ∈ List.filter keepChar (lowerStr s),
      keepChar c = true := fun c hc => List.of_mem_filter hc
  have hxl : ∀ c ∈ List.filter keepChar (lowerStr s),
      c.toLower = c := fun c hc => lowerStr_mem_fix (List.mem_of_mem_filter hc)
  have hJ : normalizarTextoParalelo s =
      joinSep ' ' (splitWS (List.filter keepChar (lowerStr s))) := by
    rw [normalizarTextoParalelo, stripWS_collapseWS]
  have hnice : ∀ w ∈ splitWS (List.filter keepChar (lowerStr s)),
      w ≠ [] ∧ ∀ c ∈ w, isSpaceChar c = false := by
    intro w hw
    obtain ⟨hne, hrest⟩ := splitWS_words w hw
    exact ⟨hne, fun c hc => (hrest c hc).1⟩
  have hchars : ∀ c ∈ normalizarTextoParalelo s,
      c.toLower = c ∧ keepChar c = true := by
    intro c hc
    rcases joinSep_splitWS_chars c (hJ ▸ hc) with h | h
    · subst h; exact ⟨by decide, by decide⟩
    · exact ⟨hxl c h, hxk c h⟩
  have hlower : lowerStr (normalizarTextoParalelo s) = normalizarTextoParalelo s :=
    lowerStr_fix (fun c hc => (hchars c hc).1)
  have hfilter : List.filter keepChar (normalizarTextoParalelo s) =
      normalizarTextoParalelo s :=
    List.filter_eq_self.mpr (fun a ha => (hchars a ha).2)
  conv_lhs => rw [normalizarTextoParalelo, hlower, hfilter]
  conv_lhs => rw [hJ, collapseWS_joinSep hnice, stripWS_joinSep hnice]
  rw [hJ]

/-! ### Run-collapsing: `takeRun`, `filtrarConsecutivas` and the spec form -/

theorem takeRun_eq {τ : Type} (anchor : Str) (l : List (Segment τ)) :
    takeRun anchor l =
      (l.takeWhile (fun x => matchesAnchor anchor x.textNorm),
       l.dropWhile (fun x => matchesAnchor anchor x.textNorm)) := by
  induction l with
  | nil => rfl
  | cons s rest ih =>
    by_cases h : matchesAnchor anchor s.textNorm
    · simp only [takeRun, if_pos h, ih]
      rw [List.takeWhile_cons_of_pos
          (p := fun x : Segment τ => matchesAnchor anchor x.textNorm) h,
        List.dropWhile_cons_of_pos
          (p := fun x : Segment τ => matchesAnchor anchor x.textNorm) h]
    · simp only [takeRun, if_neg h]
      rw [List.takeWhile_cons_of_neg
          (p := fun x : Segment τ => matchesAnchor anchor x.textNorm) h,
        List.dropWhile_cons_of_neg
          (p := fun x : Segment τ => matchesAnchor anchor x.textNorm) h]

theorem specMatches_eq_matchesAnchor (a b : Str) :
    specMatches a b = matchesAnchor a b := by
  rw [specMatches, matchesAnchor, Bool.or_comm (isSubstr b a)]

theorem filtrarConsecutivas_nil {τ : Type} (m : Nat) :
    filtrarConsecutivas m ([] : List (Segment τ)) = ([], 0) := rfl

theorem filtrarConsecutivas_cons {τ : Type} (m : Nat) (s : Segment τ)
    (rest : List (Segment τ)) :
    filtrarConsecutivas m (s :: rest) =
      if m < ((takeRun s.textNorm rest).1).length + 1 then
        (s :: (filtrarConsecutivas m (takeRun s.textNorm rest).2).1,
         ((takeRun s.textNorm rest).1).length +
           (filtrarConsecutivas m (takeRun s.textNorm rest).2).2)
      else
        (s :: ((takeRun s.textNorm rest).1 ++
            (filtrarConsecutivas m (takeRun s.textNorm rest).2).1),
         (filtrarConsecutivas m (takeRun s.textNorm rest).2).2) := by
  have hle := takeRun_snd_length_le s.textNorm rest
  rw [show filtrarConsecutivas m (s :: rest) =
      filtrarConsecutivasGo m (rest.length + 1) (s :: rest) from rfl,
    filtrarConsecutivasGo_cons,
    filtrarConsecutivasGo_congr m rest.length (takeRun s.textNorm rest).2
      ((takeRun s.textNorm rest).2.length) hle (Nat.le_refl _)]
  rfl

theorem specStep2_nil {τ : Type} (m : Nat) :
    specStep2 m ([] : List (Segment τ)) = [] := by
  rw [specStep2]

theorem specStep2_cons {τ : Type} (m : Nat) (s : Segment τ)
    (rest : List (Segment τ)) :
    specStep2 m (s :: rest) =
      if m < (rest.takeWhile (fun x => specMatches s.textNorm x.textNorm)).length + 1
      then s :: specStep2 m
        (rest.dropWhile (fun x => specMatches s.textNorm x.textNorm))
      else (s :: rest.takeWhile (fun x => specMatches s.textNorm x.textNorm)) ++
        specStep2 m (rest.dropWhile (fun x => specMatches s.textNorm x.textNorm)) := by
  rw [specStep2]

theorem specMatches_fun_eq {τ : Type} (s : Segment τ) :
    (fun x : Segment τ => specMatches s.textNorm x.textNorm) =
      (fun x : Segment τ => matchesAnchor s.textNorm x.textNorm) :=
  funext (fun x => specMatches_eq_matchesAnchor _ _)

theorem takeRun_fst {τ : Type} (anchor : Str) (l : List (Segment τ)) :
    (takeRun anchor l).1 =
      l.takeWhile (fun x => matchesAnchor anchor x.textNorm) := by
  rw [takeRun_eq]

theorem takeRun_snd {τ : Type} (anchor : Str) (l : List (Segment τ)) :
    (takeRun anchor l).2 =
      l.dropWhile (fun x => matchesAnchor anchor x.textNorm) := by
  rw [takeRun_eq]

/-- The loop implementation agrees with the spec's takeWhile/dropWhile
formulation of consecutive-run collapsing. -/
theorem filtrarConsecutivas_fst_eq_spec {τ : Type} (m : Nat)
    (l : List (Segment τ)) :
    (filtrarConsecutivas m l).1 = specStep2 m l := by
  generalize hn : l.length = n
  induction n using Nat.strong_induction_on generalizing l with
  | _ n ih =>
    rcases l with _ | ⟨s, rest⟩
    · rw [filtrarConsecutivas_nil, specStep2_nil]
    · have hlt : (rest.dropWhile
          (fun x => matchesAnchor s.textNorm x.textNorm)).length < n := by
        have h1 : (rest.dropWhile
            (fun x => matchesAnchor s.textNorm x.textNorm)).length ≤
            rest.length := (List.dropWhile_sublist _).length_le
        rw [← hn]
        simp only [List.length_cons]
        omega
      rw [filtrarConsecutivas_cons, specStep2_cons, specMatches_fun_eq,
        takeRun_fst, takeRun_snd]
      by_cases hc : m < (rest.takeWhile
          (fun x => matchesAnchor s.textNorm x.textNorm)).length + 1
      · rw [if_pos hc, if_pos hc]
        dsimp only
        rw [ih _ hlt _ rfl]
      · rw [if_neg hc, if_neg hc]
        dsimp only
        rw [ih _ hlt _ rfl]
        rfl

theorem specStep2_sublist {τ : Type} (m : Nat) (l : List (Segment τ)) :
    (specStep2 m l).Sublist l := by
  generalize hn : l.length = n
  induction n using Nat.strong_induction_on generalizing l with
  | _ n ih =>
    rcases l with _ | ⟨s, rest⟩
    · rw [specStep2_nil]
    · have hlt : (rest.dropWhile
          (fun x => specMatches s.textNorm x.textNorm)).length < n := by
        have h1 : (rest.dropWhile
            (fun x => specMatches s.textNorm x.textNorm)).length ≤
            rest.length := (List.dropWhile_sublist _).length_le
        rw [← hn]
        simp only [List.length_cons]
        omega
      have hsub : (specStep2 m (rest.dropWhile
          (fun x => specMatches s.textNorm x.textNorm))).Sublist rest :=
        (ih _ hlt _ rfl).trans (List.dropWhile_sublist _)
      rw [specStep2_cons]
      by_cases hc : m < (rest.takeWhile
          (fun x => specMatches s.textNorm x.textNorm)).length + 1
      · rw [if_pos hc]
        exact hsub.cons₂ s
      · rw [if_neg hc]
        rw [List.cons_append]
        apply List.Sublist.cons₂
        have h3 := (ih _ hlt _ rfl).append_left
          (rest.takeWhile (fun x => specMatches s.textNorm x.textNorm))
        rw [List.takeWhile_append_dropWhile] at h3
        exact h3

theorem specStep2_head {τ : Type} (m : Nat) (s : Segment τ)
    (rest : List (Segment τ)) :
    ∃ u, specStep2 m (s :: rest) = s :: u := by
  rw [specStep2_cons]
  by_cases hc : m < (rest.takeWhile
      (fun x => specMatches s.textNorm x.textNorm)).length + 1
  · rw [if_pos hc]
    exact ⟨_, rfl⟩
  · rw [if_neg hc, List.cons_append]
    exact ⟨_, rfl⟩

theorem specStep2_idem {τ : Type} (m : Nat) (l : List (Segment τ)) :
    specStep2 m (specStep2 m l) = specStep2 m l := by
  generalize hn : l.length = n
  induction n using Nat.strong_induction_on generalizing l with
  | _ n ih =>
    rcases l with _ | ⟨s, rest⟩
    · rw [specStep2_nil, specStep2_nil]
    · have hlt : (rest.dropWhile
          (fun x => specMatches s.textNorm x.textNorm)).length < n := by
        have h1 : (rest.dropWhile
            (fun x => specMatches s.textNorm x.textNorm)).length ≤
            rest.length := (List.dropWhile_sublist _).length_le
        rw [← hn]
        simp only [List.length_cons]
        omega
      have hIH : specStep2 m (specStep2 m (rest.dropWhile
          (fun x => specMatches s.textNorm x.textNorm))) =
          specStep2 m (rest.dropWhile
            (fun x => specMatches s.textNorm x.textNorm)) := ih _ hlt _ rfl
      -- the head of the filtered tail (if any) still fails the anchor match
      have htailshape : specStep2 m (rest.dropWhile
            (fun x => specMatches s.textNorm x.textNorm)) = [] ∨
          ∃ y u, specStep2 m (rest.dropWhile
            (fun x => specMatches s.textNorm x.textNorm)) = y :: u ∧
            specMatches s.textNorm y.textNorm = false := by
        rcases hdw : rest.dropWhile (fun x => specMatches s.textNorm x.textNorm)
          with _ | ⟨y, t⟩
        · left; rw [hdw, specStep2_nil]
        · right
          obtain ⟨u, hu⟩ := specStep2_head m y t
          have hy := dropWhile_head_not
            (fun x : Segment τ => specMatches s.textNorm x.textNorm) rest hdw
          exact ⟨y, u, by rw [hdw, hu], hy⟩
      have htk2 : (specStep2 m (rest.dropWhile
            (fun x => specMatches s.textNorm x.textNorm))).takeWhile
            (fun x => specMatches s.textNorm x.textNorm) = [] := by
        rcases htailshape with h | ⟨y, u, hyu, hy⟩
        · rw [h]; rfl
        · rw [hyu, List.takeWhile_cons_of_neg (by simp [hy])]
      have hdw2 : (specStep2 m (rest.dropWhile
            (fun x => specMatches s.textNorm x.textNorm))).dropWhile
            (fun x => specMatches s.textNorm x.textNorm) =
          specStep2 m (rest.dropWhile
            (fun x => specMatches s.textNorm x.textNorm)) := by
        rcases htailshape with h | ⟨y, u, hyu, hy⟩
        · rw [h]; rfl
        · rw [hyu, List.dropWhile_cons_of_neg (by simp [hy])]
      rw [specStep2_cons]
      by_cases hc : m < (rest.takeWhile
          (fun x => specMatches s.textNorm x.textNorm)).length + 1
      · rw [if_pos hc, specStep2_cons, htk2, hdw2, hIH]
        by_cases hm : m < List.length ([] : List (Segment τ)) + 1
        · rw [if_pos hm]
        · rw [if_neg hm, List.cons_append, List.nil_append]
      · rw [if_neg hc, List.cons_append, specStep2_cons]
        have hallrun : ∀ x ∈ rest.takeWhile
            (fun x => specMatches s.textNorm x.textNorm),
            (fun x : Segment τ => specMatches s.textNorm x.textNorm) x = true :=
          fun x hx => List.mem_takeWhile_imp
            (p := fun y : Segment τ => specMatches s.textNorm y.textNorm) hx
        rw [List.takeWhile_append_of_pos hallrun,
          List.dropWhile_append_of_pos hallrun, htk2, hdw2, hIH,
          List.append_nil, if_neg hc, List.cons_append]

theorem filtrarConsecutivas_fst_cons {τ : Type} (m : Nat) (s : Segment τ)
    (rest : List (Segment τ)) :
    ∃ u, (filtrarConsecutivas m (s :: rest)).1 = s :: u := by
  rw [filtrarConsecutivas_fst_eq_spec]
  exact specStep2_head m s rest

theorem filtrar_alucinacoes_fst_sublist {τ : Type} (segs : List (Segment τ))
    (m : Nat) : ((filtrar_alucinacoes segs m).1).Sublist segs := by
  simp only [filtrar_alucinacoes]
  by_cases h1 : segs.isEmpty
  · rw [if_pos h1]
  · rw [if_neg h1]
    by_cases h2 : (segs.filter (fun seg => !eh_alucinacao_interna seg.text)).isEmpty
    · rw [if_pos h2]
      exact List.nil_sublist segs
    · rw [if_neg h2]
      have h3 := specStep2_sublist m
        (segs.filter (fun seg => !eh_alucinacao_interna seg.text))
      rw [← filtrarConsecutivas_fst_eq_spec] at h3
      exact h3.trans (List.filter_sublist segs)

theorem filtrar_alucinacoes_idem {τ : Type} (segs : List (Segment τ)) (m : Nat) :
    (filtrar_alucinacoes (filtrar_alucinacoes segs m).1 m).1 =
      (filtrar_alucinacoes segs m).1 := by
  by_cases h1 : segs.isEmpty
  · rw [List.isEmpty_iff] at h1
    subst h1
    rfl
  · by_cases h2 : (segs.filter (fun seg => !eh_alucinacao_interna seg.text)).isEmpty
    · have hout : (filtrar_alucinacoes segs m).1 = [] := by
        simp only [filtrar_alucinacoes, if_neg h1, if_pos h2]
      rw [hout]
      rfl
    · have hout : (filtrar_alucinacoes segs m).1 =
          (filtrarConsecutivas m
            (segs.filter (fun seg => !eh_alucinacao_interna seg.text))).1 := by
        simp only [filtrar_alucinacoes, if_neg h1, if_neg h2]
      have hsubL : ((filtrar_alucinacoes segs m).1).Sublist
          (segs.filter (fun seg => !eh_alucinacao_interna seg.text)) := by
        rw [hout, filtrarConsecutivas_fst_eq_spec]
        exact specStep2_sublist m _
      have hmem : ∀ x ∈ (filtrar_alucinacoes segs m).1,
          (!eh_alucinacao_interna x.text) = true :=
        fun x hx => (List.mem_filter.mp (hsubL.subset hx)).2
      have houtne : ¬ ((filtrar_alucinacoes segs m).1).isEmpty := by
        rw [List.isEmpty_iff] at h2 ⊢
        obtain ⟨s, rest, hsr⟩ := List.exists_cons_of_ne_nil h2
        obtain ⟨u, hu⟩ := filtrarConsecutivas_fst_cons m s rest
        rw [hout, hsr, hu]
        exact List.cons_ne_nil s u
      have hfo : ((filtrar_alucinacoes segs m).1).filter
          (fun seg => !eh_alucinacao_interna seg.text) =
          (filtrar_alucinacoes segs m).1 :=
        List.filter_eq_self.mpr hmem
      conv_lhs => rw [filtrar_alucinacoes]
      rw [if_neg houtne, hfo, if_neg houtne]
      rw [hout, filtrarConsecutivas_fst_eq_spec, filtrarConsecutivas_fst_eq_spec,
        specStep2_idem]

/-! ### Caption wrapper: word-group view of the greedy loop -/

/-- A word as produced by `splitWS`: non-empty and free of whitespace. -/
def NiceWord (w : Str) : Prop :=
  w ≠ [] ∧ ∀ c ∈ w, isSpaceChar c = false

theorem splitWS_nice {s : Str} : ∀ w ∈ splitWS s, NiceWord w := by
  intro w hw
  obtain ⟨hne, hrest⟩ := splitWS_words w hw
  exact ⟨hne, fun c hc => (hrest c hc).1⟩

/-- Ghost view of one iteration of the greedy loop, on word groups instead
of strings. -/
def addWord (maxChars : Nat) (acc : List (List Str) × List Str) (w : Str) :
    List (List Str) × List Str :=
  if (joinSep ' ' (acc.2 ++ [w])).length ≤ maxChars then (acc.1, acc.2 ++ [w])
  else if acc.2.isEmpty then (acc.1, [w])
  else (acc.1 ++ [acc.2], [w])

/-- Ghost view of the whole greedy loop: the list of word groups, one per
produced line. -/
def quebrarGroups (maxChars : Nat) (palavras : List Str) : List (List Str) :=
  let p := palavras.foldl (addWord maxChars) ([], [])
  if p.2.isEmpty then p.1 else p.1 ++ [p.2]

theorem joinSep_append {sep : Char} :
    ∀ {ws₁ ws₂ : List Str}, ws₁ ≠ [] → ws₂ ≠ [] →
    joinSep sep (ws₁ ++ ws₂) = joinSep sep ws₁ ++ sep :: joinSep sep ws₂ := by
  intro ws₁
  induction ws₁ with
  | nil => intro ws₂ h _; exact absurd rfl h
  | cons x ws₁ ih =>
    intro ws₂ h1 h2
    rcases ws₁ with _ | ⟨x', ws₁'⟩
    · rw [List.singleton_append, joinSep_cons h2]
      rfl
    · rw [List.cons_append, joinSep_cons (by simp), joinSep_cons (List.cons_ne_nil x' ws₁'),
        ih (List.cons_ne_nil x' ws₁') h2, List.append_assoc]
      rfl

theorem joinSep_append_singleton {g : List Str} (h : g ≠ []) (w : Str) :
    joinSep ' ' (g ++ [w]) = joinSep ' ' g ++ ' ' :: w := by
  rw [joinSep_append h (List.cons_ne_nil w [])]
  rfl

theorem joinSep_length_mono {sep : Char} (xs ys : List Str) :
    (joinSep sep xs).length ≤ (joinSep sep (xs ++ ys)).length := by
  rcases hx : xs with _ | ⟨x, xs'⟩
  · rw [show joinSep sep ([] : List Str) = [] from rfl]
    simp
  · rcases hy : ys with _ | ⟨y, ys'⟩
    · simp
    · rw [joinSep_append (List.cons_ne_nil x xs') (List.cons_ne_nil y ys')]
      simp

theorem joinSep_nice {g : List Str} (h : ∀ w ∈ g, NiceWord w) :
    ∀ w ∈ g, w ≠ [] ∧ ∀ c ∈ w, isSpaceChar c = false :=
  fun w hw => h w hw

/-- The string tested by `quebrar_legenda_netflix` for each word equals the
joined candidate group. -/
theorem teste_eq {g : List Str} {w : Str} (hg : ∀ x ∈ g, NiceWord x)
    (hw : NiceWord w) :
    stripWS (joinSep ' ' g ++ ' ' :: w) = joinSep ' ' (g ++ [w]) := by
  rcases hgz : g with _ | ⟨x, g'⟩
  · rw [show joinSep ' ' ([] : List Str) = [] from rfl, List.nil_append,
      stripWS_cons_space space_isSpaceChar, List.nil_append]
    have := @stripWS_joinSep [w] (by simpa [NiceWord] using hw)
    simpa using this
  · rw [← hgz, joinSep_append_singleton (hgz ▸ List.cons_ne_nil x g') w]
    have hgw : ∀ y ∈ g ++ [w], y ≠ [] ∧ ∀ c ∈ y, isSpaceChar c = false := by
      intro y hy
      rcases List.mem_append.mp hy with h1 | h1
      · exact hg y h1
      · rw [List.mem_singleton.mp h1]; exact hw
    rw [← joinSep_append_singleton (hgz ▸ List.cons_ne_nil x g') w,
      stripWS_joinSep hgw]

theorem addWord_snd_nice (mc : Nat) {G : List (List Str)} {g : List Str}
    {w : Str} (hg : ∀ x ∈ g, NiceWord x) (hw : NiceWord w) :
    ∀ x ∈ (addWord mc (G, g) w).2, NiceWord x := by
  rw [addWord]
  dsimp only
  by_cases hc : (joinSep ' ' (g ++ [w])).length ≤ mc
  · rw [if_pos hc]
    intro x hx
    rcases List.mem_append.mp hx with h | h
    · exact hg x h
    · rw [List.mem_singleton.mp h]; exact hw
  · rw [if_neg hc]
    by_cases hge : g.isEmpty
    · rw [if_pos hge]
      intro x hx
      rw [List.mem_singleton.mp hx]; exact hw
    · rw [if_neg hge]
      intro x hx
      rw [List.mem_singleton.mp hx]; exact hw

theorem foldl_addWord_snd_nice (mc : Nat) :
    ∀ (ws : List Str) (G : List (List Str)) (g : List Str),
    (∀ w ∈ ws, NiceWord w) → (∀ x ∈ g, NiceWord x) →
    ∀ x ∈ (ws.foldl (addWord mc) (G, g)).2, NiceWord x := by
  intro ws
  induction ws with
  | nil => intro G g _ hg; exact hg
  | cons w ws ih =>
    intro G g hws hg
    rw [List.foldl_cons]
    have hw : NiceWord w := hws w (List.mem_cons_self w ws)
    have h2 := addWord_snd_nice mc (G := G) hg hw
    have h3 : addWord mc (G, g) w =
        ((addWord mc (G, g) w).1, (addWord mc (G, g) w).2) := rfl
    rw [h3]
    exact ih _ _ (fun x hx => hws x (List.mem_cons_of_mem w hx)) h2

theorem quebrarStep_eq (mc : Nat) (G : List (List Str)) (g : List Str)
    (w : Str) (hg : ∀ x ∈ g, NiceWord x) (hw : NiceWord w) :
    quebrarStep mc (G.map (joinSep ' '), joinSep ' ' g) w =
      ((addWord mc (G, g) w).1.map (joinSep ' '),
       joinSep ' ' (addWord mc (G, g) w).2) := by
  rw [quebrarStep, addWord]
  dsimp only
  rw [teste_eq hg hw]
  by_cases hc : (joinSep ' ' (g ++ [w])).length ≤ mc
  · rw [if_pos hc, if_pos hc]
  · rw [if_neg hc, if_neg hc]
    by_cases hge : g = []
    · subst hge
      rw [show joinSep ' ' ([] : List Str) = [] from rfl]
      simp only [List.isEmpty_nil, if_true]
      rfl
    · have hne : joinSep ' ' g ≠ [] := by
        obtain ⟨x, g', hx⟩ := List.exists_cons_of_ne_nil hge
        subst hx
        exact joinSep_ne_nil (hg x (List.mem_cons_self x g')).1
      rw [if_neg (by simpa using hne), if_neg (by simpa using hge),
        List.map_append]
      rfl

theorem foldl_quebrarStep_eq (mc : Nat) :
    ∀ (ws : List Str) (G : List (List Str)) (g : List Str),
    (∀ w ∈ ws, NiceWord w) → (∀ x ∈ g, NiceWord x) →
    ws.foldl (quebrarStep mc) (G.map (joinSep ' '), joinSep ' ' g) =
      ((ws.foldl (addWord mc) (G, g)).1.map (joinSep ' '),
       joinSep ' ' ((ws.foldl (addWord mc) (G, g)).2)) := by
  intro ws
  induction ws with
  | nil => intro G g _ _; rfl
  | cons w ws ih =>
    intro G g hws hg
    have hw : NiceWord w := hws w (List.mem_cons_self w ws)
    have hws' : ∀ x ∈ ws, NiceWord x :=
      fun x hx => hws x (List.mem_cons_of_mem w hx)
    rw [List.foldl_cons, List.foldl_cons, quebrarStep_eq mc G g w hg hw]
    have h2 := addWord_snd_nice mc (G := G) hg hw
    have h3 : addWord mc (G, g) w =
        ((addWord mc (G, g) w).1, (addWord mc (G, g) w).2) := rfl
    conv_rhs => rw [h3]
    exact ih _ _ hws' h2

theorem addWord_flatten_step (mc : Nat) (G : List (List Str)) (g : List Str)
    (w : Str) :
    ((addWord mc (G, g) w).1).flatten ++ (addWord mc (G, g) w).2 =
      G.flatten ++ (g ++ [w]) := by
  rw [addWord]
  dsimp only
  by_cases hc : (joinSep ' ' (g ++ [w])).length ≤ mc
  · rw [if_pos hc]
  · rw [if_neg hc]
    by_cases hge : g.isEmpty
    · rw [if_pos hge]
      rw [List.isEmpty_iff] at hge
      subst hge
      rfl
    · rw [if_neg hge, List.flatten_append]
      simp

theorem foldl_addWord_flatten (mc : Nat) :
    ∀ (ws : List Str) (G : List (List Str)) (g : List Str),
    ((ws.foldl (addWord mc) (G, g)).1).flatten ++
        (ws.foldl (addWord mc) (G, g)).2 = G.flatten ++ g ++ ws := by
  intro ws
  induction ws with
  | nil => intro G g; simp
  | cons w ws ih =>
    intro G g
    rw [List.foldl_cons]
    have h3 : addWord mc (G, g) w =
        ((addWord mc (G, g) w).1, (addWord mc (G, g) w).2) := rfl
    rw [h3, ih _ _, addWord_flatten_step]
    simp

theorem quebrarGroups_flatten (mc : Nat) (ws : List Str) :
    (quebrarGroups mc ws).flatten = ws := by
  rw [quebrarGroups]
  have h := foldl_addWord_flatten mc ws [] []
  simp only [List.flatten_nil, List.nil_append] at h
  by_cases hp : (ws.foldl (addWord mc) ([], [])).2.isEmpty
  · rw [if_pos hp]
    rw [List.isEmpty_iff] at hp
    rw [hp, List.append_nil] at h
    exact h
  · rw [if_neg hp, List.flatten_append]
    simpa using h

theorem quebrarLinhasAll_eq (texto : Str) (mc : Nat) :
    quebrarLinhasAll texto mc =
      (quebrarGroups mc (splitWS (stripWS (replaceNL texto)))).map
        (joinSep ' ') := by
  rw [quebrarLinhasAll, quebrarGroups]
  have hn : ∀ w ∈ splitWS (stripWS (replaceNL texto)), NiceWord w :=
    splitWS_nice
  have hfold := foldl_quebrarStep_eq mc (splitWS (stripWS (replaceNL texto)))
    [] [] hn (by intro x hx; exact absurd hx (List.not_mem_nil x))
  have hinit : ((([] : List (List Str)).map (joinSep ' ')),
      joinSep ' ' ([] : List Str)) = (([] : List Str), ([] : Str)) := rfl
  rw [hinit] at hfold
  rw [hfold]
  dsimp only
  by_cases hF : ((splitWS (stripWS (replaceNL texto))).foldl
      (addWord mc) ([], [])).2 = []
  · rw [hF]
    rw [show joinSep ' ' ([] : List Str) = [] from rfl]
    simp only [List.isEmpty_nil, if_true]
  · have hnice := foldl_addWord_snd_nice mc (splitWS (stripWS (replaceNL texto)))
      [] [] hn (by intro x hx; exact absurd hx (List.not_mem_nil x))
    obtain ⟨x, g', hx⟩ := List.exists_cons_of_ne_nil hF
    have hne : joinSep ' '
        ((splitWS (stripWS (replaceNL texto))).foldl (addWord mc) ([], [])).2 ≠
        [] := by
      rw [hx]
      exact joinSep_ne_nil (hnice x (hx ▸ List.mem_cons_self x g')).1
    rw [if_neg (by simpa using hne), if_neg (by simpa using hF),
      List.map_append]
    rfl

/-- A finished line group: non-empty, nice words, and fitting within the
budget unless it is a single (over-long) word. -/
def GoodGroup (mc : Nat) (g : List Str) : Prop :=
  g ≠ [] ∧ (∀ w ∈ g, NiceWord w) ∧
    ((joinSep ' ' g).length ≤ mc ∨ g.length = 1)

/-- The greedy boundary invariant between consecutive line groups: the first
word of the next group did not fit on the previous line. -/
def Boundary (mc : Nat) (g g' : List Str) : Prop :=
  ∃ w t, g' = w :: t ∧ mc < (joinSep ' ' (g ++ [w])).length

/-- Invariant of the greedy fold state. -/
def GoodState (mc : Nat) (p : List (List Str) × List Str) : Prop :=
  (∀ gg ∈ p.1, GoodGroup mc gg) ∧
  (∀ w ∈ p.2, NiceWord w) ∧
  (p.2 ≠ [] → ((joinSep ' ' p.2).length ≤ mc ∨ p.2.length = 1)) ∧
  (p.2 = [] → p.1 = []) ∧
  (p.2 ≠ [] → List.Chain' (Boundary mc) (p.1 ++ [p.2]))

theorem addWord_good (mc : Nat) {p : List (List Str) × List Str} {w : Str}
    (hp : GoodState mc p) (hw : NiceWord w) :
    GoodState mc (addWord mc p w) := by
  obtain ⟨hgroups, hnice, hfit, hemp, hchain⟩ := hp
  rcases p with ⟨G, g⟩
  dsimp only at hgroups hnice hfit hemp hchain
  rw [addWord]
  dsimp only
  have hnice' : ∀ x ∈ g ++ [w], NiceWord x := by
    intro x hx
    rcases List.mem_append.mp hx with h | h
    · exact hnice x h
    · rw [List.mem_singleton.mp h]; exact hw
  by_cases hc : (joinSep ' ' (g ++ [w])).length ≤ mc
  · rw [if_pos hc]
    refine ⟨hgroups, hnice', fun _ => Or.inl hc, by simp, fun _ => ?_⟩
    by_cases hge : g = []
    · subst hge
      rw [hemp rfl]
      exact List.chain'_singleton _
    · have hch := hchain hge
      rw [List.chain'_append] at hch ⊢
      obtain ⟨h1, _, h3⟩ := hch
      refine ⟨h1, List.chain'_singleton _, ?_⟩
      intro x hx y hy
      rw [List.head?_cons, Option.mem_some_iff] at hy
      subst hy
      have hb := h3 x hx (g) (by rw [List.head?_cons, Option.mem_some_iff])
      obtain ⟨w₀, t₀, hg₀, hlen₀⟩ := hb
      exact ⟨w₀, t₀ ++ [w], by rw [hg₀, List.cons_append], hlen₀⟩
  · rw [if_neg hc]
    by_cases hge : g.isEmpty
    · rw [if_pos hge]
      rw [List.isEmpty_iff] at hge
      rw [hemp hge]
      refine ⟨by simp, ?_, ?_, by simp, ?_⟩
      · intro x hx
        rw [List.mem_singleton.mp hx]; exact hw
      · intro _
        right; rfl
      · intro _
        rw [List.nil_append]
        exact List.chain'_singleton _
    · rw [if_neg hge]
      rw [List.isEmpty_iff] at hge
      have hgood_g : GoodGroup mc g := ⟨hge, hnice, hfit hge⟩
      refine ⟨?_, ?_, ?_, by simp, ?_⟩
      · intro gg hgg
        rcases List.mem_append.mp hgg with h | h
        · exact hgroups gg h
        · rw [List.mem_singleton.mp h]; exact hgood_g
      · intro x hx
        rw [List.mem_singleton.mp hx]; exact hw
      · intro _
        right; rfl
      · intro _
        rw [List.chain'_append]
        refine ⟨hchain hge, List.chain'_singleton _, ?_⟩
        intro x hx y hy
        rw [List.head?_cons, Option.mem_some_iff] at hy
        subst hy
        have hlast : x = g := by
          have hx2 : x ∈ (G ++ [g]).getLast? := hx
          rw [List.getLast?_concat, Option.mem_some_iff] at hx2
          exact hx2.symm
        subst hlast
        exact ⟨w, [], rfl, by omega⟩

theorem foldl_addWord_good (mc : Nat) :
    ∀ (ws : List Str) (p : List (List Str) × List Str),
    (∀ w ∈ ws, NiceWord w) → GoodState mc p →
    GoodState mc (ws.foldl (addWord mc) p) := by
  intro ws
  induction ws with
  | nil => intro p _ hp; exact hp
  | cons w ws ih =>
    intro p hws hp
    rw [List.foldl_cons]
    exact ih _ (fun x hx => hws x (List.mem_cons_of_mem w hx))
      (addWord_good mc hp (hws w (List.mem_cons_self w ws)))

theorem quebrarGroups_good (mc : Nat) (ws : List Str)
    (hws : ∀ w ∈ ws, NiceWord w) :
    (∀ gg ∈ quebrarGroups mc ws, GoodGroup mc gg) ∧
    List.Chain' (Boundary mc) (quebrarGroups mc ws) := by
  have hinit : GoodState mc (([], []) : List (List Str) × List Str) := by
    refine ⟨by simp, by simp, ?_, by simp, ?_⟩
    · intro h; exact absurd rfl h
    · intro h; exact absurd rfl h
  have hp := foldl_addWord_good mc ws ([], []) hws hinit
  obtain ⟨hgroups, hnice, hfit, hemp, hchain⟩ := hp
  rw [quebrarGroups]
  by_cases h2 : (ws.foldl (addWord mc) ([], [])).2.isEmpty
  · rw [if_pos h2]
    rw [List.isEmpty_iff] at h2
    rw [hemp h2]
    exact ⟨by simp, List.chain'_nil⟩
  · rw [if_neg h2]
    rw [List.isEmpty_iff] at h2
    constructor
    · intro gg hgg
      rcases List.mem_append.mp hgg with h | h
      · exact hgroups gg h
      · rw [List.mem_singleton.mp h]
        exact ⟨h2, hnice, hfit h2⟩
    · exact hchain h2

theorem addWord_from_empty (mc : Nat) (A : List (List Str)) (w : Str) :
    addWord mc (A, []) w = (A, [w]) := by
  rw [addWord]
  dsimp only
  by_cases hc : (joinSep ' ' ([] ++ [w])).length ≤ mc
  · rw [if_pos hc]
    rfl
  · rw [if_neg hc]
    simp only [List.isEmpty_nil, if_true]

theorem fold_within_group (mc : Nat) (A : List (List Str)) :
    ∀ (g₂ g₁ : List Str), g₁ ≠ [] → (joinSep ' ' (g₁ ++ g₂)).length ≤ mc →
    g₂.foldl (addWord mc) (A, g₁) = (A, g₁ ++ g₂) := by
  intro g₂
  induction g₂ with
  | nil => intro g₁ _ _; simp
  | cons w g₂ ih =>
    intro g₁ h1 hfit
    rw [List.foldl_cons]
    have hmono : (joinSep ' ' (g₁ ++ [w])).length ≤ mc := by
      have := @joinSep_length_mono ' ' (g₁ ++ [w]) g₂
      rw [List.append_assoc] at this
      have h2 : ([w] ++ g₂ : List Str) = w :: g₂ := rfl
      rw [h2] at this
      omega
    rw [addWord]
    dsimp only
    rw [if_pos hmono]
    have := ih (g₁ ++ [w]) (by simp) (by rw [List.append_assoc]; exact hfit)
    rw [this, List.append_assoc]
    rfl

theorem fold_group (mc : Nat) (A : List (List Str)) (g : List Str)
    (hg : GoodGroup mc g) :
    g.foldl (addWord mc) (A, []) = (A, g) := by
  obtain ⟨hne, hnice, hfit⟩ := hg
  obtain ⟨w, gw, hw⟩ := List.exists_cons_of_ne_nil hne
  subst hw
  rw [List.foldl_cons, addWord_from_empty]
  rcases hfit with hfit | hfit
  · exact fold_within_group mc A gw [w] (by simp) hfit
  · have : gw = [] := by
      simp only [List.length_cons] at hfit
      exact List.eq_nil_of_length_eq_zero (by omega)
    subst this
    rfl

theorem fold_next_group (mc : Nat) (A : List (List Str))
    (gprev g : List Str) (hb : Boundary mc gprev g) (hgp : gprev ≠ [])
    (hg : GoodGroup mc g) :
    g.foldl (addWord mc) (A, gprev) = (A ++ [gprev], g) := by
  obtain ⟨w, t, hwt, hlen⟩ := hb
  subst hwt
  rw [List.foldl_cons, addWord]
  dsimp only
  rw [if_neg (by omega), if_neg (by simpa using hgp)]
  obtain ⟨_, _, hfit⟩ := hg
  rcases hfit with hfit | hfit
  · exact fold_within_group mc (A ++ [gprev]) t [w] (by simp) hfit
  · have : t = [] := by
      simp only [List.length_cons] at hfit
      exact List.eq_nil_of_length_eq_zero (by omega)
    subst this
    rfl

/-- Close off the greedy fold state into the final group list. -/
def closeGroups (p : List (List Str) × List Str) : List (List Str) :=
  if p.2.isEmpty then p.1 else p.1 ++ [p.2]

theorem quebrarGroups_eq_close (mc : Nat) (ws : List Str) :
    quebrarGroups mc ws = closeGroups (ws.foldl (addWord mc) ([], [])) := rfl

theorem fold_reconstruct (mc : Nat) :
    ∀ (G : List (List Str)) (A : List (List Str)) (gprev : List Str),
    gprev ≠ [] → (∀ gg ∈ G, GoodGroup mc gg) →
    List.Chain' (Boundary mc) (gprev :: G) →
    closeGroups ((G.flatten).foldl (addWord mc) (A, gprev)) =
      A ++ gprev :: G := by
  intro G
  induction G with
  | nil =>
    intro A gprev hne _ _
    rw [List.flatten_nil, List.foldl_nil, closeGroups]
    dsimp only
    rw [if_neg (by simpa using hne)]
  | cons g G ih =>
    intro A gprev hne hgood hchain
    have hb : Boundary mc gprev g := (List.chain'_cons.mp hchain).1
    have hgg : GoodGroup mc g := hgood g (List.mem_cons_self g G)
    rw [show (g :: G).flatten = g ++ G.flatten from rfl, List.foldl_append,
      fold_next_group mc A gprev g hb hne hgg,
      ih (A ++ [gprev]) g hgg.1
        (fun x hx => hgood x (List.mem_cons_of_mem g hx))
        (List.chain'_cons.mp hchain).2]
    simp

theorem quebrarGroups_reconstruct (mc : Nat) (H : List (List Str))
    (hgood : ∀ gg ∈ H, GoodGroup mc gg)
    (hchain : List.Chain' (Boundary mc) H) :
    quebrarGroups mc H.flatten = H := by
  rcases H with _ | ⟨g, G⟩
  · rfl
  · rw [quebrarGroups_eq_close,
      show (g :: G).flatten = g ++ G.flatten from rfl, List.foldl_append,
      fold_group mc [] g (hgood g (List.mem_cons_self g G))]
    have := fold_reconstruct mc G [] g (hgood g (List.mem_cons_self g G)).1
      (fun x hx => hgood x (List.mem_cons_of_mem g hx)) hchain
    rw [this, List.nil_append]

theorem flatten_ne_nil {G : List (List Str)} (h : ∀ gg ∈ G, gg ≠ [])
    (hG : G ≠ []) : G.flatten ≠ [] := by
  obtain ⟨g, G', hg⟩ := List.exists_cons_of_ne_nil hG
  subst hg
  rw [show (g :: G').flatten = g ++ G'.flatten from rfl]
  have := h g (List.mem_cons_self g G')
  intro hcontra
  exact this (List.append_eq_nil.mp hcontra).1

theorem joinSep_map_joinSep {G : List (List Str)} (h : ∀ gg ∈ G, gg ≠ []) :
    joinSep ' ' (G.map (joinSep ' ')) = joinSep ' ' G.flatten := by
  induction G with
  | nil => rfl
  | cons g G ih =>
    rcases hG : G with _ | ⟨g', G'⟩
    · rw [show ([g] : List (List Str)).map (joinSep ' ') = [joinSep ' ' g]
          from rfl]
      rw [show ([g] : List (List Str)).flatten = g ++ [] from rfl,
        List.append_nil]
      rfl
    · rw [← hG]
      have hGne : G ≠ [] := by rw [hG]; exact List.cons_ne_nil g' G'
      have hmapne : G.map (joinSep ' ') ≠ [] := by
        intro hcon
        exact hGne (List.map_eq_nil_iff.mp hcon)
      have hflat : G.flatten ≠ [] :=
        flatten_ne_nil (fun x hx => h x (List.mem_cons_of_mem g hx)) hGne
      rw [List.map_cons, joinSep_cons hmapne,
        ih (fun x hx => h x (List.mem_cons_of_mem g hx)),
        show (g :: G).flatten = g ++ G.flatten from rfl,
        joinSep_append (h g (List.mem_cons_self g G)) hflat]

theorem replaceNL_fix {s : Str} (h : ∀ c ∈ s, c ≠ '\n') :
    replaceNL s = s := by
  rw [replaceNL]
  rw [List.map_congr_left (fun c hc => if_neg (h c hc))]
  simp

theorem replaceNL_joinSepNL {L : List Str}
    (h : ∀ line ∈ L, ∀ c ∈ line, c ≠ '\n') :
    replaceNL (joinSep '\n' L) = joinSep ' ' L := by
  induction L with
  | nil => rfl
  | cons l L ih =>
    rcases hL : L with _ | ⟨l', L'⟩
    · exact replaceNL_fix (h l (List.mem_cons_self l L))
    · rw [← hL]
      have hLne : L ≠ [] := by rw [hL]; exact List.cons_ne_nil l' L'
      rw [joinSep_cons hLne, joinSep_cons hLne, replaceNL, List.map_append,
        List.map_cons, if_pos rfl]
      rw [← replaceNL, ← replaceNL,
        replaceNL_fix (h l (List.mem_cons_self l L)),
        ih (fun x hx => h x (List.mem_cons_of_mem l hx))]

/-- Characters of a joined good group line: a space or a word character of
the group; in particular never a newline. -/
theorem line_no_newline {g : List Str} (hg : ∀ w ∈ g, NiceWord w) :
    ∀ c ∈ joinSep ' ' g, c ≠ '\n' := by
  intro c hc
  rcases joinSep_mem c hc with h | h
  · subst h; decide
  · obtain ⟨w, hw, hcw⟩ := h
    have := (hg w hw).2 c hcw
    intro hcon
    subst hcon
    simp [isSpaceChar] at this

theorem quebrarLinhas_eq (texto : Str) (mc ml : Nat) :
    quebrarLinhas texto mc ml =
      ((quebrarGroups mc (splitWS (stripWS (replaceNL texto)))).take ml).map
        (joinSep ' ') := by
  rw [quebrarLinhas, quebrarLinhasAll_eq, ← List.map_take]

theorem quebrar_lines_shape (texto : Str) (mc ml : Nat) :
    (quebrarLinhas texto mc ml).length ≤ ml ∧
    ∀ line ∈ quebrarLinhas texto mc ml,
      line.length ≤ mc ∨ (splitWS line = [line] ∧ mc < line.length) := by
  rw [quebrarLinhas_eq]
  constructor
  · rw [List.length_map]
    exact List.length_take_le ml _
  · intro line hline
    obtain ⟨gg, hgg, hlineq⟩ := List.mem_map.mp hline
    have hggG : gg ∈ quebrarGroups mc (splitWS (stripWS (replaceNL texto))) :=
      (List.take_sublist ml _).subset hgg
    have hgood := (quebrarGroups_good mc _ splitWS_nice).1 gg hggG
    obtain ⟨hne, hnice, hfit⟩ := hgood
    by_cases hc : (joinSep ' ' gg).length ≤ mc
    · left
      rw [← hlineq]
      exact hc
    · right
      rcases hfit with hfit | hfit
      · exact absurd hfit hc
      · obtain ⟨w, hw⟩ := List.length_eq_one.mp hfit
        subst hw
        have hjw : joinSep ' ' [w] = w := rfl
        have hsw : splitWS w = [w] := by
          have := @splitWS_joinSep [w]
            (by simpa [NiceWord] using hnice w (List.mem_cons_self w []))
          rwa [hjw] at this
        rw [← hlineq, hjw]
        rw [hjw] at hc
        exact ⟨hsw, by omega⟩

theorem quebrar_words_take (texto : Str) (mc ml : Nat) :
    ∃ k, joinSep ' ' (quebrarLinhas texto mc ml) =
      joinSep ' ' ((splitWS (replaceNL texto)).take k) := by
  rw [quebrarLinhas_eq]
  have hgood := (quebrarGroups_good mc
    (splitWS (stripWS (replaceNL texto))) splitWS_nice).1
  have hne : ∀ gg ∈ (quebrarGroups mc
      (splitWS (stripWS (replaceNL texto)))).take ml, gg ≠ [] :=
    fun gg hgg => (hgood gg ((List.take_sublist ml _).subset hgg)).1
  rw [joinSep_map_joinSep hne]
  have hsplit : ((quebrarGroups mc
      (splitWS (stripWS (replaceNL texto)))).take ml).flatten ++
      ((quebrarGroups mc (splitWS (stripWS (replaceNL texto)))).drop ml).flatten =
      splitWS (stripWS (replaceNL texto)) := by
    rw [← List.flatten_append, List.take_append_drop, quebrarGroups_flatten]
  have hpre : ((quebrarGroups mc
      (splitWS (stripWS (replaceNL texto)))).take ml).flatten <+:
      splitWS (stripWS (replaceNL texto)) := ⟨_, hsplit⟩
  refine ⟨((quebrarGroups mc
      (splitWS (stripWS (replaceNL texto)))).take ml).flatten.length, ?_⟩
  rw [← splitWS_stripWS (replaceNL texto), ← List.prefix_iff_eq_take.mp hpre]

theorem quebrar_legenda_netflix_idem (texto : Str) (mc ml : Nat) :
    quebrar_legenda_netflix (quebrar_legenda_netflix texto mc ml) mc ml =
      quebrar_legenda_netflix texto mc ml := by
  obtain ⟨hgoodG, hchainG⟩ := quebrarGroups_good mc
    (splitWS (stripWS (replaceNL texto))) splitWS_nice
  -- facts about the truncated group list
  have hgoodT : ∀ gg ∈ (quebrarGroups mc
      (splitWS (stripWS (replaceNL texto)))).take ml, GoodGroup mc gg :=
    fun gg hgg => hgoodG gg ((List.take_sublist ml _).subset hgg)
  have hchainT := hchainG.take ml
  have hniceT : ∀ w ∈ ((quebrarGroups mc
      (splitWS (stripWS (replaceNL texto)))).take ml).flatten, NiceWord w := by
    intro w hw
    obtain ⟨gg, hgg, hwg⟩ := List.mem_flatten.mp hw
    exact (hgoodT gg hgg).2.1 w hwg
  have hniceT' : ∀ w ∈ ((quebrarGroups mc
      (splitWS (stripWS (replaceNL texto)))).take ml).flatten,
      w ≠ [] ∧ ∀ c ∈ w, isSpaceChar c = false := hniceT
  -- the output, seen as joined lines
  have houter : quebrar_legenda_netflix texto mc ml =
      joinSep '\n' (((quebrarGroups mc
        (splitWS (stripWS (replaceNL texto)))).take ml).map (joinSep ' ')) := by
    rw [quebrar_legenda_netflix, quebrarLinhas_eq]
  -- replacing newlines in the output restores the single-space join
  have hrep : replaceNL (quebrar_legenda_netflix texto mc ml) =
      joinSep ' ' (((quebrarGroups mc
        (splitWS (stripWS (replaceNL texto)))).take ml).flatten) := by
    rw [houter, replaceNL_joinSepNL, joinSep_map_joinSep
      (fun gg hgg => (hgoodT gg hgg).1)]
    intro line hline
    obtain ⟨gg, hgg, hlineq⟩ := List.mem_map.mp hline
    rw [← hlineq]
    exact line_no_newline ((hgoodT gg hgg).2.1)
  -- re-running the wrapper
  conv_lhs => rw [quebrar_legenda_netflix, quebrarLinhas_eq, hrep,
    stripWS_joinSep hniceT', splitWS_joinSep hniceT',
    quebrarGroups_reconstruct mc _ hgoodT hchainT,
    List.take_of_length_le (List.length_take_le ml _)]
  rw [houter]

/-! ### Remaining support lemmas for the claims -/

theorem dropTrailingWS_idem (l : Str) :
    dropTrailingWS (dropTrailingWS l) = dropTrailingWS l := by
  induction l with
  | nil => rfl
  | cons c rest ih =>
    rw [dropTrailingWS_cons]
    by_cases hr : (dropTrailingWS rest).isEmpty
    · rw [if_pos hr]
      by_cases hc : isSpaceChar c
      · rw [if_pos hc]; rfl
      · rw [if_neg hc, dropTrailingWS_cons]
        rw [show dropTrailingWS ([] : Str) = [] from rfl]
        simp only [List.isEmpty_nil, if_true]
        rw [if_neg hc]
    · rw [if_neg hr, dropTrailingWS_cons, ih, if_neg hr]

theorem stripWS_idem (s : Str) : stripWS (stripWS s) = stripWS s := by
  rcases h : stripWS s with _ | ⟨e, y⟩
  · rfl
  · have hd : stripWS s = dropTrailingWS (s.dropWhile isSpaceChar) := rfl
    obtain ⟨t, ht, _⟩ := dropTrailingWS_decomp (s.dropWhile isSpaceChar)
    have he : isSpaceChar e = false := by
      have h2 : s.dropWhile isSpaceChar = e :: (y ++ t) := by
        rw [ht, ← hd, h, List.cons_append]
      exact dropWhile_head_not _ _ h2
    have hA : (stripWS s).dropWhile isSpaceChar = stripWS s := by
      rw [h, List.dropWhile_cons_of_neg (by simp [he])]
    have hB : stripWS (stripWS s) =
        dropTrailingWS ((stripWS s).dropWhile isSpaceChar) := rfl
    rw [← h, hB, hA, hd, dropTrailingWS_idem, ← hd]

theorem toLower_space {c : Char} (h : isSpaceChar c = true) :
    c.toLower = c := by
  simp only [isSpaceChar, Bool.or_eq_true, decide_eq_true_eq] at h
  rcases h with (((((h|h)|h)|h)|h)|h) <;> subst h <;> decide

theorem eh_alucinacao_all_space {t : Str}
    (h : ∀ c ∈ t, isSpaceChar c = true) :
    eh_alucinacao_interna t = false := by
  have hsplit : splitWS (punctToSpace (lowerStr t)) = [] := by
    apply splitWS_of_nil
    rw [dropWhile_nil_iff]
    intro x hx
    rw [punctToSpace] at hx
    obtain ⟨a, ha, hax⟩ := List.mem_map.mp hx
    rw [lowerStr] at ha
    obtain ⟨b, hb, hba⟩ := List.mem_map.mp ha
    have hbs : isSpaceChar b = true := h b hb
    have has : isSpaceChar a = true := by rw [← hba, toLower_space hbs]; exact hbs
    rw [← hax]
    rw [if_pos (by simp [keepChar, has])]
    exact has
  rw [eh_alucinacao_interna, hsplit]
  rfl

theorem processarFiltro_text {τ : Type} (raw : List (RawSegment τ)) :
    ∀ seg ∈ processarFiltro raw,
    seg.text ≠ [] ∧ stripWS seg.text = seg.text := by
  intro seg hseg
  have hsub : seg ∈ processarStep1 raw := by
    have h1 : ((filtrarConsecutivas 2 (processarStep1 raw)).1).Sublist
        (processarStep1 raw) := by
      rw [filtrarConsecutivas_fst_eq_spec]
      exact specStep2_sublist 2 _
    exact h1.subset hseg
  rw [processarStep1] at hsub
  obtain ⟨r, _, hmk⟩ := List.mem_filterMap.mp hsub
  dsimp only at hmk
  by_cases hcond : (!(stripWS r.text).isEmpty &&
      !eh_alucinacao_interna (stripWS r.text)) = true
  · rw [if_pos hcond] at hmk
    have hseg2 : seg = ⟨r.start, r.stop, stripWS r.text,
        normalizarTextoParalelo (stripWS r.text)⟩ := by
      injection hmk with h2
      exact h2.symm
    subst hseg2
    dsimp only
    constructor
    · intro hcontra
      rw [Bool.and_eq_true] at hcond
      have h1 := hcond.1
      rw [hcontra] at h1
      simp at h1
    · exact stripWS_idem r.text
  · rw [if_neg hcond] at hmk
    exact absurd hmk (by simp)

theorem eh_alucinacao_interna_iff (t : Str) :
    eh_alucinacao_interna t = true ↔
    (5 ≤ (splitWS (punctToSpace (lowerStr t))).length ∧
      ((if (mostCommon (splitWS (punctToSpace (lowerStr t)))).1 ∈ palavrasOk
        then 7 * (splitWS (punctToSpace (lowerStr t))).length ≤
          10 * (mostCommon (splitWS (punctToSpace (lowerStr t)))).2
        else (splitWS (punctToSpace (lowerStr t))).length ≤
          2 * (mostCommon (splitWS (punctToSpace (lowerStr t)))).2) ∨
       (10 ≤ (splitWS (punctToSpace (lowerStr t))).length ∧
        (splitWS (punctToSpace (lowerStr t))).dedup.length ≤ 3))) := by
  unfold eh_alucinacao_interna
  simp only [decide_eq_true_eq]
  set ws := splitWS (punctToSpace (lowerStr t)) with hws
  by_cases h5 : ws.length < 5
  · rw [if_pos h5]
    constructor
    · intro hc
      exact absurd hc (by simp)
    · intro hc
      exact absurd hc.1 (by omega)
  · rw [if_neg h5]
    have h5' : 5 ≤ ws.length := by omega
    by_cases hok : (mostCommon ws).1 ∈ palavrasOk
    · by_cases hA : 7 * ws.length ≤ 10 * (mostCommon ws).2
      · rw [if_pos (by rw [if_pos hok]; exact hA)]
        simp [h5', hok, hA]
      · rw [if_neg (by rw [if_pos hok]; exact hA)]
        by_cases hC : 10 ≤ ws.length ∧ ws.dedup.length ≤ 3
        · rw [if_pos hC]
          simp [h5', hok, hC]
        · rw [if_neg hC]
          simp [hok, hA, hC]
    · by_cases hB : ws.length ≤ 2 * (mostCommon ws).2
      · rw [if_pos (by rw [if_neg hok]; exact hB)]
        simp [h5', hok, hB]
      · rw [if_neg (by rw [if_neg hok]; exact hB)]
        by_cases hC : 10 ≤ ws.length ∧ ws.dedup.length ≤ 3
        · rw [if_pos hC]
          simp [h5', hok, hC]
        · rw [if_neg hC]
          simp [hok, hB, hC]

/-! ### Concrete-instance helpers -/

/-- A Python string literal as a character list. -/
def strL (s : String) : Str := s.toList

/-- A concrete segment as `parse_srt` builds it: timestamps plus the text
and its `normalizar_texto`-normalized form. -/
def mkSegment (a b : Nat) (t : String) : Segment Nat :=
  ⟨a, b, t.toList, normalizar_texto t.toList⟩

/-! ### The claims -/

/-- C1: step 2 of `filtrar_alucinacoes` collapses consecutive runs exactly
as the spec describes: a run extends from its anchor over each following
segment whose normalized text equals the anchor's, or — when the anchor's
normalized text is longer than 3 characters — is a substring of it or
contains it; a run longer than `max_repeticoes` keeps only its first
segment unchanged, a shorter run is kept whole. In particular four
segments normalized to hello, hello, hello, world with threshold 2 yield
the first hello followed by world. -/
theorem claim_C1 :
    (∀ (τ : Type) (m : Nat) (l : List (Segment τ)),
      (filtrarConsecutivas m l).1 = specStep2 m l) ∧
    ((mkSegment 0 1 "hello").textNorm = strL "hello" ∧
     (mkSegment 3 4 "world").textNorm = strL "world" ∧
     (filtrar_alucinacoes
        [mkSegment 0 1 "hello", mkSegment 1 2 "hello",
         mkSegment 2 3 "hello", mkSegment 3 4 "world"] 2).1 =
      [mkSegment 0 1 "hello", mkSegment 3 4 "world"]) :=
  ⟨fun τ => filtrarConsecutivas_fst_eq_spec, by decide⟩

/-- C2: `eh_alucinacao_interna` returns true iff the whitespace-split words
of the lower-cased, punctuation-to-space text number at least 5 and either
the most common word reaches its threshold (ratio at least 0.7, i.e.
7 * count_total <= 10 * count_max, when it lies in the common-word set,
else ratio at least 0.5) or there are at least 10 words with at most 3
distinct ones; any text with fewer than 5 words is rejected, and a word
repeated 10 times is accepted. -/
theorem claim_C2 :
    (∀ t : Str, eh_alucinacao_interna t = true ↔
      (5 ≤ (splitWS (punctToSpace (lowerStr t))).length ∧
        ((if (mostCommon (splitWS (punctToSpace (lowerStr t)))).1 ∈ palavrasOk
          then 7 * (splitWS (punctToSpace (lowerStr t))).length ≤
            10 * (mostCommon (splitWS (punctToSpace (lowerStr t)))).2
          else (splitWS (punctToSpace (lowerStr t))).length ≤
            2 * (mostCommon (splitWS (punctToSpace (lowerStr t)))).2) ∨
         (10 ≤ (splitWS (punctToSpace (lowerStr t))).length ∧
          (splitWS (punctToSpace (lowerStr t))).dedup.length ≤ 3)))) ∧
    (∀ t : Str, (splitWS (punctToSpace (lowerStr t))).length < 5 →
      eh_alucinacao_interna t = false) ∧
    eh_alucinacao_interna (strL "oh oh oh oh oh oh oh oh oh oh") = true := by
  refine ⟨eh_alucinacao_interna_iff, ?_, by decide⟩
  intro t ht
  cases heq : eh_alucinacao_interna t
  · rfl
  · have h := (eh_alucinacao_interna_iff t).mp heq
    exact absurd h.1 (by omega)

theorem claim_C2_witness :
    (splitWS (punctToSpace (lowerStr (strL "uh huh")))).length < 5 ∧
    eh_alucinacao_interna (strL "uh huh") = false :=
  ⟨by decide, claim_C2.2.1 (strL "uh huh") (by decide)⟩

/-- C3 counterexample: `filtrar_alucinacoes` itself performs no emptiness
check — `eh_alucinacao_interna` of the empty text is false (fewer than 5
words), so a segment with empty text survives into the output. -/
theorem claim_C3_counterexample :
    mkSegment 0 1 "" ∈ (filtrar_alucinacoes [mkSegment 0 1 ""] 2).1 ∧
    (mkSegment 0 1 "").text = [] := by decide

/-- C3 (amended): the emptiness guarantee holds for the inline pipeline of
`processar_video` in `extrair_paralelo.py`, whose step 1 keeps a segment
only when its stripped text is non-empty and not a hallucination: every
segment of its output has non-empty text with no boundary whitespace.
`eh_alucinacao_interna` alone classifies whitespace-only text as
non-hallucination, so `filtrar_alucinacoes` drops only hallucinations. -/
theorem claim_C3 :
    (∀ t : Str, (∀ c ∈ t, isSpaceChar c = true) →
      eh_alucinacao_interna t = false) ∧
    (∀ (τ : Type) (raw : List (RawSegment τ)) (seg : Segment τ),
      seg ∈ processarFiltro raw →
      seg.text ≠ [] ∧ stripWS seg.text = seg.text) :=
  ⟨fun t h => eh_alucinacao_all_space h,
   fun τ raw => processarFiltro_text raw⟩

theorem claim_C3_witness :
    ((∀ c ∈ strL " ", isSpaceChar c = true) ∧
      eh_alucinacao_interna (strL " ") = false) ∧
    ((⟨0, 1, strL "hi", normalizarTextoParalelo (strL "hi")⟩ : Segment Nat) ∈
        processarFiltro [(⟨0, 1, strL " hi "⟩ : RawSegment Nat)] ∧
      (⟨0, 1, strL "hi",
        normalizarTextoParalelo (strL "hi")⟩ : Segment Nat).text ≠ [] ∧
      stripWS (⟨0, 1, strL "hi",
        normalizarTextoParalelo (strL "hi")⟩ : Segment Nat).text =
        (⟨0, 1, strL "hi",
          normalizarTextoParalelo (strL "hi")⟩ : Segment Nat).text) :=
  ⟨⟨by decide, claim_C3.1 (strL " ") (by decide)⟩,
   ⟨by decide,
    claim_C3.2 Nat [⟨0, 1, strL " hi "⟩]
      ⟨0, 1, strL "hi", normalizarTextoParalelo (strL "hi")⟩ (by decide)⟩⟩

/-- C4 counterexample: `normalizar_texto` strips before removing
punctuation, so "a !" normalizes to "a " and a second pass changes it. -/
theorem claim_C4_counterexample :
    normalizar_texto (normalizar_texto (strL "a !")) ≠
      normalizar_texto (strL "a !") := by decide

/-- C4 (amended): `normalizar_texto` is idempotent only up to boundary
whitespace — a second application equals stripping the first — because it
strips before removing punctuation; the strip-last inline copy in
`extrair_paralelo.py` is idempotent for every string. -/
theorem claim_C4 :
    (∀ s : Str, normalizar_texto (normalizar_texto s) =
      stripWS (normalizar_texto s)) ∧
    (∀ s : Str, normalizarTextoParalelo (normalizarTextoParalelo s) =
      normalizarTextoParalelo s) :=
  ⟨normalizar_texto_twice, normalizarTextoParalelo_idem⟩

/-- C5 counterexample: the regex class \w keeps underscores and the output
may carry a trailing space, so the stated postcondition (keep only letters,
digits, whitespace; no boundary whitespace) fails at "a_ !". -/
theorem claim_C5_counterexample :
    normalizar_texto (strL "a_ !") ≠ normalizeSpec (strL "a_ !") := by decide

/-- C5 (amended): stripping the output of `normalizar_texto` gives exactly
the `extrair_paralelo.py` normalization: lower-case, drop every character
that is neither a word character (letter, digit, or underscore — the
underscore is kept, contrary to the stated letter/digit/whitespace class)
nor whitespace, collapse whitespace runs to one space, strip; the raw
output may retain one leading or trailing space, and the empty string maps
to the empty string. -/
theorem claim_C5 :
    (∀ s : Str, stripWS (normalizar_texto s) = normalizarTextoParalelo s) ∧
    normalizar_texto (strL "ab_c") = strL "ab_c" ∧
    normalizar_texto [] = [] :=
  ⟨stripWS_normalizar_texto, by decide, rfl⟩

/-- C6: the output of `filtrar_alucinacoes` is a subsequence of the input
— original order, no new or modified segments — and the empty input yields
the empty output. -/
theorem claim_C6 :
    (∀ (τ : Type) (segs : List (Segment τ)) (m : Nat),
      ((filtrar_alucinacoes segs m).1).Sublist segs) ∧
    (∀ (τ : Type) (m : Nat),
      (filtrar_alucinacoes ([] : List (Segment τ)) m).1 = []) :=
  ⟨fun τ => filtrar_alucinacoes_fst_sublist, fun τ m => rfl⟩

/-- C7: for max_chars and max_linhas at least 1, `quebrar_legenda_netflix`
produces at most max_linhas lines, each either within max_chars or a
single unsplittable word longer than max_chars; empty input yields empty
output, and the returned string is the newline-join of those lines. -/
theorem claim_C7 (texto : Str) (mc ml : Nat) (h1 : 1 ≤ mc) (h2 : 1 ≤ ml) :
    (quebrarLinhas texto mc ml).length ≤ ml ∧
    (∀ line ∈ quebrarLinhas texto mc ml,
      line.length ≤ mc ∨ (splitWS line = [line] ∧ mc < line.length)) ∧
    quebrar_legenda_netflix [] mc ml = [] ∧
    quebrar_legenda_netflix texto mc ml =
      joinSep '\n' (quebrarLinhas texto mc ml) := by
  refine ⟨(quebrar_lines_shape texto mc ml).1,
    (quebrar_lines_shape texto mc ml).2, ?_, rfl⟩
  rw [quebrar_legenda_netflix, quebrarLinhas,
    show quebrarLinhasAll ([] : Str) mc = [] from rfl, List.take_nil]
  rfl

theorem claim_C7_witness :
    (1 : Nat) ≤ 10 ∧ (1 : Nat) ≤ 2 ∧
    ((quebrarLinhas (strL "The quick brown fox jumps over the lazy dog")
        10 2).length ≤ 2 ∧
     (∀ line ∈ quebrarLinhas
        (strL "The quick brown fox jumps over the lazy dog") 10 2,
       line.length ≤ 10 ∨ (splitWS line = [line] ∧ 10 < line.length)) ∧
     quebrar_legenda_netflix [] 10 2 = [] ∧
     quebrar_legenda_netflix
        (strL "The quick brown fox jumps over the lazy dog") 10 2 =
       joinSep '\n' (quebrarLinhas
        (strL "The quick brown fox jumps over the lazy dog") 10 2)) :=
  ⟨by decide, by decide,
    claim_C7 (strL "The quick brown fox jumps over the lazy dog") 10 2
      (by decide) (by decide)⟩

/-- C8: joining the wrapper's output lines with spaces reproduces a prefix
of the whitespace-split words of the newline-replaced input — words in
order, none altered or introduced; words past max_linhas lines are
dropped, as the concrete instance with max_linhas = 1 shows. -/
theorem claim_C8 :
    (∀ (texto : Str) (mc ml : Nat),
      ∃ k, joinSep ' ' (quebrarLinhas texto mc ml) =
        joinSep ' ' ((splitWS (replaceNL texto)).take k)) ∧
    quebrarLinhas (strL "aaaa bbbb cccc") 4 1 = [strL "aaaa"] :=
  ⟨quebrar_words_take, by decide⟩

/-- C9: both passes are idempotent on their own output: re-filtering a
filtered segment list returns it unchanged, and re-wrapping wrapped text
with the same parameters returns it unchanged. -/
theorem claim_C9 :
    (∀ (τ : Type) (segs : List (Segment τ)) (m : Nat),
      (filtrar_alucinacoes (filtrar_alucinacoes segs m).1 m).1 =
        (filtrar_alucinacoes segs m).1) ∧
    (∀ (texto : Str) (mc ml : Nat),
      quebrar_legenda_netflix (quebrar_legenda_netflix texto mc ml) mc ml =
        quebrar_legenda_netflix texto mc ml) :=
  ⟨fun τ => filtrar_alucinacoes_idem, quebrar_legenda_netflix_idem⟩

/-- C10: in `eh_alucinacao_interna` punctuation becomes a space before
splitting, so "oh,oh,oh,oh,oh" counts 5 words and is flagged, while
`normalizar_texto` deletes the punctuation, producing the single word
"ohohohohoh". -/
theorem claim_C10 :
    eh_alucinacao_interna (strL "oh,oh,oh,oh,oh") = true ∧
    (splitWS (punctToSpace (lowerStr (strL "oh,oh,oh,oh,oh")))).length = 5 ∧
    normalizar_texto (strL "oh,oh,oh,oh,oh") = strL "ohohohohoh" := by decide
